import Mathlib

/-! Game of the Goose: turn-resolution engine of `Main.c`

A shallow embedding of the board model, the movement resolver, the
turn-order resolver and the turn loop of `Main.c`, followed by theorems
about them.

Conventions of the embedding.

* The two global fixed-size arrays `players[MAX_PLAYERS]` and
  `board[NUM_BOARD_SPACES]` are total functions on `Fin MAX_PLAYERS` and
  `Fin NUM_BOARD_SPACES`; the globals themselves are threaded as a `Game`
  value.
* A C `int` is an `Int`.  An `int` used as an array subscript goes through
  `index?`; a subscript outside the array is the fault `outOfBounds`
  (undefined behaviour in C).
* `_countof(board) - 1` has type `size_t`, so the comparison and the
  reflection of `update_Position` are computed on `size_t` values
  (`toSizeT`, 64 bit) and stored back into an `int` (`toInt`, 32 bit).
* The `do ... while` loops carry a fuel argument; running out of it is
  the fault `outOfFuel`.
* `printf` output is the list of the printed lines; dice are an explicit
  list of the totals returned by `roll_Dice`.
-/

namespace Goose

/-! ## Configuration (Main.c lines 35-53) -/

abbrev NUM_BOARD_SPACES : Nat := 24
abbrev MAX_PLAYERS : Nat := 2

def gooseSpaces : List Int := [7, 11, 15]
def bridgeSpaces : List Int := [6]
def mazeSpaces : List Int := [13, 30]
def skullSpaces : List Int := [23]

def SYM_GOOSE : Char := '+'
def SYM_BRIDGE : Char := '*'
def SYM_MAZE : Char := '-'
def SYM_SKULL : Char := '!'
def SYM_NONE : Char := Char.ofNat 0
def SYM_COMPUTER : Char := '%'
def SYM_HUMAN : Char := '$'

/-! ## Data model (Main.c lines 58-83) -/

/-- A player of the game (`struct Player`). -/
structure Player where
  name : String
  symbol : Char
  position : Int

/-- A space of the game board (`struct Space`). -/
structure Space where
  special : Char
  isOccupied : Bool

/-- The two global arrays of the program. -/
structure Game where
  players : Fin MAX_PLAYERS → Player
  board : Fin NUM_BOARD_SPACES → Space

/-- The globals as the program starts: the initialiser of `players` and the
zero-initialised `board`. -/
def initialGame : Game where
  players := fun j =>
    if j = 0 then { name := "HUMAN", symbol := SYM_HUMAN, position := 0 }
    else { name := "COMPUTER", symbol := SYM_COMPUTER, position := 0 }
  board := fun _ => { special := Char.ofNat 0, isOccupied := false }

/-- What can go wrong in the embedding: a subscript outside its array, a
loop that used up its fuel, or a call of `roll_Dice` when the given list of
dice totals is used up. -/
inductive Fault where
  | outOfBounds
  | outOfFuel
  | outOfDice
  deriving DecidableEq, Repr

/-- An `int` used as a subscript of an array of `n` elements. -/
def index? (n : Nat) (i : Int) : Option (Fin n) :=
  if h : 0 ≤ i ∧ i < n then some ⟨i.toNat, by omega⟩ else none

/-- Conversion of an integer value to `size_t` (64 bit, unsigned). -/
def toSizeT (x : Int) : Int := x % 18446744073709551616

/-- Conversion of an integer value to `int` (32 bit, two's complement). -/
def toInt (x : Int) : Int := (x + 2147483648) % 4294967296 - 2147483648

/-! ## Board model: `get_Special` (Main.c lines 441-478) -/

/-- One search loop of `get_Special`: is `position + 1` an entry of the
configuration list? -/
def listed (spaces : List Int) (position : Int) : Bool :=
  spaces.any (fun s => s == position + 1)

/-- The special symbol at a given position of the board. -/
def get_Special (position : Int) : Char :=
  if listed gooseSpaces position then SYM_GOOSE
  else if listed bridgeSpaces position then SYM_BRIDGE
  else if listed mazeSpaces position then SYM_MAZE
  else if listed skullSpaces position then SYM_SKULL
  else SYM_NONE

/-! ## `reset_Game` (Main.c lines 483-507) -/

/-- A new game board with the default state; every player back on index 0. -/
def reset_Game (g : Game) : Game where
  board := fun position =>
    { special := get_Special (position.val : Int)
      isOccupied := if position.val ≠ 0 then false else true }
  players := fun player => { g.players player with position := 0 }

/-! ## `next_Player` (Main.c lines 168-182) -/

/-- Which player's turn is next. -/
def next_Player (currentPlayer : Int) : Int :=
  if toSizeT currentPlayer = (MAX_PLAYERS : Int) - 1 then 0 else currentPlayer + 1

/-! ## Movement resolver: `update_Position` (Main.c lines 196-268) -/

def MSG_GOOSE : String := "Player landed on a goose! Moving the roll amount again!\n"
def MSG_BRIDGE : String := "Player landed on a bridge! Moving to space 12!\n"
def MSG_MAZE : String := "Player landed on a maze! No movement this round!\n"
def MSG_SKULL : String := "Player landed on a skull! Moving back to start!\n"

/-- The line printed at the end of `update_Position`. -/
def MSG_NEW_SPACE (position : Int) : String :=
  "New space is: " ++ toString (position + 1) ++ "\n"

/-- Lines 205-211: add the roll, and reflect a position past the last space.
The comparison and the reflection are `size_t` arithmetic. -/
def advance (position roll : Int) : Int :=
  let position := position + roll
  if toSizeT position > (NUM_BOARD_SPACES : Int) - 1 then
    toInt (toSizeT (((NUM_BOARD_SPACES : Int) - 1)
      - toSizeT (toSizeT position - ((NUM_BOARD_SPACES : Int) - 1))))
  else position

/-- The `do ... while (moveAgain)` loop of `update_Position`, lines 201-246,
on the value of `players[currentPlayer].position`.  The result is the position
the loop leaves and the lines it printed. -/
def moveLoop (board : Fin NUM_BOARD_SPACES → Space) (originalPosition roll : Int) :
    Nat → Int → Except Fault (Int × List String)
  | 0, _ => .error .outOfFuel
  | fuel + 1, position =>
    let position := advance position roll
    match index? NUM_BOARD_SPACES position with
    | none => .error .outOfBounds
    | some i =>
      let special := (board i).special
      if special = SYM_GOOSE then
        match moveLoop board originalPosition roll fuel position with
        | .error e => .error e
        | .ok (final, out) => .ok (final, MSG_GOOSE :: out)
      else if special = SYM_BRIDGE then .ok (11, [MSG_BRIDGE])
      else if special = SYM_MAZE then .ok (originalPosition, [MSG_MAZE])
      else if special = SYM_SKULL then .ok (0, [MSG_SKULL])
      else .ok (position, [])

/-- Lines 250-260: does some player stand on `originalPosition`? -/
def stillOccupied (players : Fin MAX_PLAYERS → Player) (originalPosition : Int) : Bool :=
  (List.finRange MAX_PLAYERS).any (fun i => (players i).position == originalPosition)

/-- Updates a player position based on their dice roll.  The result is the
new state of the globals and the lines printed. -/
def update_Position (fuel : Nat) (currentPlayer roll : Int) (g : Game) :
    Except Fault (Game × List String) :=
  match index? MAX_PLAYERS currentPlayer with
  | none => .error .outOfBounds
  | some c =>
    let originalPosition := (g.players c).position
    match moveLoop g.board originalPosition roll fuel originalPosition with
    | .error e => .error e
    | .ok (position, out) =>
      let players := Function.update g.players c { g.players c with position := position }
      match index? NUM_BOARD_SPACES position with
      | none => .error .outOfBounds
      | some i =>
        let board := Function.update g.board i { g.board i with isOccupied := true }
        if stillOccupied players originalPosition then
          .ok ({ players := players, board := board }, out ++ [MSG_NEW_SPACE position])
        else
          match index? NUM_BOARD_SPACES originalPosition with
          | none => .error .outOfBounds
          | some o =>
            .ok ({ players := players
                   board := Function.update board o { board o with isOccupied := false } },
                 out ++ [MSG_NEW_SPACE position])

/-- The position of the player with subscript `currentPlayer`. -/
def positionOf (g : Game) (currentPlayer : Int) : Option Int :=
  (index? MAX_PLAYERS currentPlayer).map (fun c => (g.players c).position)

/-- The special symbol of the space with subscript `position`. -/
def specialAt (board : Fin NUM_BOARD_SPACES → Space) (position : Int) : Option Char :=
  (index? NUM_BOARD_SPACES position).map (fun i => (board i).special)

/-- The landing after `k` additions of the roll (each with its reflection),
starting from `position`. -/
def landing (roll position : Int) (k : Nat) : Int :=
  (fun x => advance x roll)^[k] position

/-- The exits of the `switch` of `update_Position`: the position and the lines
the loop ends with on a landing `landed` whose space has the symbol `s`, a
symbol other than the goose one. -/
def resolve (orig landed : Int) (s : Char) : Int × List String :=
  if s = SYM_BRIDGE then (11, [MSG_BRIDGE])
  else if s = SYM_MAZE then (orig, [MSG_MAZE])
  else if s = SYM_SKULL then (0, [MSG_SKULL])
  else (landed, [])

/-! ## `handle_Player` and `print_Board` (Main.c lines 273-349) -/

/-- A player's turn: the total `roll` returned by `roll_Dice` is passed to
`update_Position`.  The prompt is not modelled. -/
def handle_Player (fuel : Nat) (currentPlayer roll : Int) (g : Game) :
    Except Fault (Game × List String) :=
  update_Position fuel currentPlayer roll g

/-- The value `isWinner` returned by `print_Board`: set when, at the last
index, the space is flagged occupied and a player's position equals that
index.  The text of the board is not modelled. -/
def print_Board (g : Game) : Bool :=
  (List.finRange NUM_BOARD_SPACES).any (fun i =>
    (g.board i).isOccupied &&
      (List.finRange MAX_PLAYERS).any (fun j =>
        (g.players j).position == (i.val : Int) &&
          (i.val : Int) == (NUM_BOARD_SPACES : Int) - 1))

/-! ## Turn-order resolver: `determine_First_Player` (Main.c lines 354-436) -/

/-- The locals of `determine_First_Player` that live across rounds.
`firstPlayer` only ever holds `0` or a value of the loop variable `i`, so it
is kept as a subscript of `players`. -/
structure FirstPlayerState where
  firstPlayer : Fin MAX_PLAYERS
  rolls : Fin MAX_PLAYERS → Int
  rollers : Fin MAX_PLAYERS → Bool
  tiesExist : Bool

/-- The `for` loop of one round (lines 378-411) over the players still to be
visited.  `dice` are the totals the coming calls of `roll_Dice` return; the
last component of the result lists the calls made, as (player, total). -/
def roundLoop : List (Fin MAX_PLAYERS) → List Int → Int → FirstPlayerState →
    Except Fault (List Int × FirstPlayerState × List (Int × Int))
  | [], dice, _, s => .ok (dice, s, [])
  | i :: rest, dice, highestRoll, s =>
    if s.rollers i then
      match dice with
      | [] => .error .outOfDice
      | roll :: dice =>
        let rolls := Function.update s.rolls i roll
        let next : Int × FirstPlayerState :=
          if roll > highestRoll then
            (roll, { firstPlayer := i, rolls := rolls
                     rollers := Function.update s.rollers i false, tiesExist := false })
          else if roll = highestRoll then
            (highestRoll, { firstPlayer := s.firstPlayer, rolls := rolls
                            rollers := Function.update
                              (Function.update s.rollers s.firstPlayer true) i true
                            tiesExist := true })
          else
            (highestRoll, { firstPlayer := s.firstPlayer, rolls := rolls
                            rollers := Function.update s.rollers i false
                            tiesExist := s.tiesExist })
        match roundLoop rest dice next.1 next.2 with
        | .error e => .error e
        | .ok (dice, s, calls) => .ok (dice, s, ((i.val : Int), roll) :: calls)
    else roundLoop rest dice highestRoll s

/-- The `do ... while (tiesExist)` loop (lines 374-429). -/
def firstPlayerLoop : Nat → List Int → FirstPlayerState →
    Except Fault (Int × List Int × List (Int × Int))
  | 0, _, _ => .error .outOfFuel
  | fuel + 1, dice, s =>
    match roundLoop (List.finRange MAX_PLAYERS) dice 0 s with
    | .error e => .error e
    | .ok (dice, s, calls) =>
      if s.tiesExist then
        match firstPlayerLoop fuel dice s with
        | .error e => .error e
        | .ok (firstPlayer, dice, more) => .ok (firstPlayer, dice, calls ++ more)
      else .ok ((s.firstPlayer.val : Int), dice, calls)

/-- Which player will roll first.  The result is the player, the dice totals
not consumed, and the calls of `roll_Dice` made, as (player, total). -/
def determine_First_Player (fuel : Nat) (dice : List Int) :
    Except Fault (Int × List Int × List (Int × Int)) :=
  firstPlayerLoop fuel dice
    { firstPlayer := 0, rolls := fun _ => 0, rollers := fun _ => true, tiesExist := false }

/-! ## Turn loop: `run_Game` (Main.c lines 512-532) -/

/-- One turn played: who moved, with which total, and the globals after it. -/
structure Turn where
  player : Int
  roll : Int
  after : Game

/-- What a run of the game did with the dice it was given: the turns played,
the argument of `print_Winner` when it was called, and the dice not consumed. -/
structure Outcome where
  turns : List Turn
  winner : Option Int
  dice : List Int

/-- The `while (true)` loop of `run_Game` (lines 520-531).  With no dice left
the run is cut off with no winner: the program would wait for the next roll. -/
def turnLoop (fuel : Nat) : List Int → Int → Game → Except Fault Outcome
  | [], _, _ => .ok { turns := [], winner := none, dice := [] }
  | roll :: dice, currentPlayer, g =>
    match handle_Player fuel currentPlayer roll g with
    | .error e => .error e
    | .ok (g', _) =>
      if print_Board g' then
        .ok { turns := [{ player := currentPlayer, roll := roll, after := g' }]
              winner := some currentPlayer, dice := dice }
      else
        match turnLoop fuel dice (next_Player currentPlayer) g' with
        | .error e => .error e
        | .ok res =>
          .ok { turns := { player := currentPlayer, roll := roll, after := g' } :: res.turns
                winner := res.winner, dice := res.dice }

/-- The game simulation: reset, pick the first player, play turns. -/
def run_Game (moveFuel roundFuel : Nat) (dice : List Int) (g : Game) : Except Fault Outcome :=
  let g := reset_Game g
  match determine_First_Player roundFuel dice with
  | .error e => .error e
  | .ok (currentPlayer, dice, _) => turnLoop moveFuel dice currentPlayer g

/-- The globals before turn `t` of a run that started in `g` and played
`turns`. -/
def stateBefore (g : Game) : List Turn → Nat → Game
  | _, 0 => g
  | [], _ + 1 => g
  | T :: turns, t + 1 => stateBefore T.after turns t

/-- No player stands on the last space. -/
def NoWinner (g : Game) : Prop :=
  ∀ j : Fin MAX_PLAYERS, (g.players j).position ≠ 23

/-! ## Reachable states and their invariant -/

/-- The states reachable from `reset_Game` by calls of `update_Position` that
return, for a player subscript 0 or 1 and a roll from 2 to 12. -/
inductive Reachable : Game → Prop
  | reset (g : Game) : Reachable (reset_Game g)
  | move {g g' : Game} {out : List String} (fuel : Nat) (currentPlayer roll : Int) :
      Reachable g → currentPlayer = 0 ∨ currentPlayer = 1 → 2 ≤ roll → roll ≤ 12 →
      update_Position fuel currentPlayer roll g = .ok (g', out) → Reachable g'

/-- Every space carries the symbol `get_Special` gives it. -/
def BoardOk (g : Game) : Prop :=
  ∀ i : Fin NUM_BOARD_SPACES, (g.board i).special = get_Special (i.val : Int)

/-- Every player's position is a subscript of the board. -/
def PositionsOk (g : Game) : Prop :=
  ∀ c : Fin MAX_PLAYERS, 0 ≤ (g.players c).position ∧ (g.players c).position ≤ 23

/-- A space is flagged occupied exactly when a player stands on it. -/
def OccupancyOk (g : Game) : Prop :=
  ∀ i : Fin NUM_BOARD_SPACES,
    (g.board i).isOccupied = true ↔ ∃ c : Fin MAX_PLAYERS, (g.players c).position = (i.val : Int)

/-- The game with the board of `reset_Game` and the two players on the given
positions, the flags set accordingly. -/
def gameAt (p0 p1 : Int) : Game where
  players := fun j =>
    if j = 0 then { name := "HUMAN", symbol := SYM_HUMAN, position := p0 }
    else { name := "COMPUTER", symbol := SYM_COMPUTER, position := p1 }
  board := fun i =>
    { special := get_Special (i.val : Int)
      isOccupied := decide ((i.val : Int) = p0 ∨ (i.val : Int) = p1) }

/-! ## Subscripts and integer conversions -/

theorem index?_eq_some {n : Nat} {x : Int} {i : Fin n} (h : index? n x = some i) :
    (i.val : Int) = x := by
  unfold index? at h
  split at h
  · rename_i hx
    simp only [Option.some.injEq] at h
    subst h
    simp only
    omega
  · cases h

theorem index?_val {n : Nat} (i : Fin n) : index? n (i.val : Int) = some i := by
  have hi := i.isLt
  unfold index?
  rw [dif_pos ⟨by omega, by omega⟩]
  simp

theorem index?_of_range {n : Nat} {x : Int} (h0 : 0 ≤ x) (h1 : x < n) :
    ∃ i : Fin n, index? n x = some i ∧ (i.val : Int) = x := by
  refine ⟨⟨x.toNat, by omega⟩, ?_, ?_⟩
  · unfold index?
    rw [dif_pos ⟨h0, h1⟩]
  · simp only
    omega

theorem advance_of_le {x r : Int} (h0 : 0 ≤ x + r) (h1 : x + r ≤ 23) : advance x r = x + r := by
  unfold advance toSizeT
  simp only [Nat.cast_ofNat]
  rw [if_neg]
  omega

theorem advance_of_gt {x r : Int} (h0 : 23 < x + r) (h1 : x + r ≤ 46) :
    advance x r = 46 - (x + r) := by
  unfold advance toSizeT toInt
  simp only [Nat.cast_ofNat]
  rw [if_pos (by omega)]
  omega

/-! ## The move loop -/

theorem moveLoop_range (board : Fin NUM_BOARD_SPACES → Space) (orig roll : Int)
    (h0 : 0 ≤ orig) (h1 : orig ≤ 23) :
    ∀ (fuel : Nat) (x q : Int) (out : List String),
      moveLoop board orig roll fuel x = .ok (q, out) → 0 ≤ q ∧ q ≤ 23 := by
  intro fuel
  induction fuel with
  | zero => intro x q out h; simp [moveLoop] at h
  | succ n ih =>
    intro x q out h
    unfold moveLoop at h
    simp only at h
    split at h
    · cases h
    · rename_i i hi
      have hv := index?_eq_some hi
      have hlt : i.val < 24 := i.isLt
      split at h
      · split at h
        · cases h
        · rename_i q' out' hrec
          simp only [Except.ok.injEq, Prod.mk.injEq] at h
          have := ih _ _ _ hrec
          omega
      · split at h
        · simp only [Except.ok.injEq, Prod.mk.injEq] at h; omega
        · split at h
          · simp only [Except.ok.injEq, Prod.mk.injEq] at h; omega
          · split at h
            · simp only [Except.ok.injEq, Prod.mk.injEq] at h; omega
            · simp only [Except.ok.injEq, Prod.mk.injEq] at h; omega

theorem moveLoop_succ (board : Fin NUM_BOARD_SPACES → Space) (orig roll : Int) :
    ∀ (fuel : Nat) (x : Int) (res : Int × List String),
      moveLoop board orig roll fuel x = .ok res →
      moveLoop board orig roll (fuel + 1) x = .ok res := by
  intro fuel
  induction fuel with
  | zero => intro x res h; simp [moveLoop] at h
  | succ n ih =>
    intro x res h
    unfold moveLoop at h
    unfold moveLoop
    try simp only at h
    try simp only
    split at h
    · cases h
    · rename_i i hi
      split at h
      · rename_i hg
        simp only [hg, if_true]
        split at h
        · cases h
        · rename_i q' out' hrec
          rw [ih _ _ hrec]
          exact h
      · rename_i hg
        simp only [hg, if_false]
        exact h

theorem moveLoop_mono (board : Fin NUM_BOARD_SPACES → Space) (orig roll : Int)
    {fuel fuel' : Nat} (hle : fuel ≤ fuel') {x : Int} {res : Int × List String}
    (h : moveLoop board orig roll fuel x = .ok res) :
    moveLoop board orig roll fuel' x = .ok res := by
  induction hle with
  | refl => exact h
  | step _ ih => exact moveLoop_succ board orig roll _ x res ih

theorem moveLoop_congr {b b' : Fin NUM_BOARD_SPACES → Space}
    (hb : ∀ i, (b i).special = (b' i).special) (orig roll : Int) :
    ∀ (fuel : Nat) (x : Int), moveLoop b orig roll fuel x = moveLoop b' orig roll fuel x := by
  intro fuel
  induction fuel with
  | zero => intro x; rfl
  | succ n ih =>
    intro x
    unfold moveLoop
    simp only [hb, ih]

/-! ## What a call of `update_Position` that returns has done -/

theorem stillOccupied_iff (players : Fin MAX_PLAYERS → Player) (p : Int) :
    stillOccupied players p = true ↔ ∃ j, (players j).position = p := by
  simp [stillOccupied, List.any_eq_true, List.mem_finRange]

theorem update_Position_ok {fuel : Nat} {c r : Int} {g g' : Game} {out : List String}
    (h : update_Position fuel c r g = .ok (g', out)) :
    ∃ (cp : Fin MAX_PLAYERS) (q : Int) (out' : List String) (i : Fin NUM_BOARD_SPACES),
      index? MAX_PLAYERS c = some cp ∧
      moveLoop g.board (g.players cp).position r fuel (g.players cp).position = .ok (q, out') ∧
      index? NUM_BOARD_SPACES q = some i ∧
      g'.players = Function.update g.players cp { g.players cp with position := q } ∧
      out = out' ++ [MSG_NEW_SPACE q] ∧
      ((stillOccupied g'.players (g.players cp).position = true ∧
          g'.board = Function.update g.board i { g.board i with isOccupied := true }) ∨
       (stillOccupied g'.players (g.players cp).position = false ∧
          ∃ o, index? NUM_BOARD_SPACES (g.players cp).position = some o ∧
            g'.board = Function.update
              (Function.update g.board i { g.board i with isOccupied := true }) o
              { (Function.update g.board i { g.board i with isOccupied := true }) o with
                isOccupied := false })) := by
  unfold update_Position at h
  split at h
  · cases h
  · rename_i cp hcp
    simp only at h
    split at h
    · cases h
    · rename_i q out' hloop
      split at h
      · cases h
      · rename_i i hi
        split at h
        · rename_i hs
          simp only [Except.ok.injEq, Prod.mk.injEq] at h
          obtain ⟨hg, ho⟩ := h
          subst hg
          exact ⟨cp, q, out', i, hcp, hloop, hi, rfl, ho.symm, Or.inl ⟨hs, rfl⟩⟩
        · rename_i hs
          split at h
          · cases h
          · rename_i o ho'
            simp only [Except.ok.injEq, Prod.mk.injEq] at h
            obtain ⟨hg, ho⟩ := h
            subst hg
            refine ⟨cp, q, out', i, hcp, hloop, hi, rfl, ho.symm, Or.inr ⟨?_, o, ho', rfl⟩⟩
            simpa using hs

theorem update_Position_special {fuel : Nat} {c r : Int} {g g' : Game} {out : List String}
    (h : update_Position fuel c r g = .ok (g', out)) (k : Fin NUM_BOARD_SPACES) :
    (g'.board k).special = (g.board k).special := by
  obtain ⟨cp, q, out', i, -, -, -, -, -, hb⟩ := update_Position_ok h
  rcases hb with ⟨-, hb⟩ | ⟨-, o, -, hb⟩
  · rw [hb]
    by_cases hk : k = i
    · subst hk; simp
    · simp [Function.update_noteq hk]
  · rw [hb]
    by_cases hko : k = o
    · subst hko
      by_cases hk : k = i
      · subst hk; simp
      · simp [Function.update_noteq hk]
    · rw [Function.update_noteq hko]
      by_cases hk : k = i
      · subst hk; simp
      · simp [Function.update_noteq hk]

theorem update_Position_boardOk {fuel : Nat} {c r : Int} {g g' : Game} {out : List String}
    (h : update_Position fuel c r g = .ok (g', out)) (hg : BoardOk g) : BoardOk g' := by
  intro k
  rw [update_Position_special h k]
  exact hg k

theorem update_Position_positionsOk {fuel : Nat} {c r : Int} {g g' : Game} {out : List String}
    (h : update_Position fuel c r g = .ok (g', out)) (hg : PositionsOk g) : PositionsOk g' := by
  obtain ⟨cp, q, out', i, -, hloop, -, hp, -, -⟩ := update_Position_ok h
  have hq := moveLoop_range g.board _ r (hg cp).1 (hg cp).2 _ _ _ _ hloop
  intro j
  rw [hp]
  by_cases hj : j = cp
  · subst hj; simpa using hq
  · rw [Function.update_noteq hj]; exact hg j

theorem update_Position_occupancyOk {fuel : Nat} {c r : Int} {g g' : Game} {out : List String}
    (h : update_Position fuel c r g = .ok (g', out)) (hg : OccupancyOk g) : OccupancyOk g' := by
  obtain ⟨cp, q, out', i, -, -, hi, hp, -, hb⟩ := update_Position_ok h
  have hiq := index?_eq_some hi
  have hcp : (g'.players cp).position = q := by rw [hp]; simp
  have hother : ∀ j, j ≠ cp → g'.players j = g.players j := by
    intro j hj; rw [hp, Function.update_noteq hj]
  -- the flag of a space other than the landing and the vacated one
  have key : ∀ k : Fin NUM_BOARD_SPACES, k ≠ i →
      ((k.val : Int) = (g.players cp).position → ∃ j, (g'.players j).position = (k.val : Int)) →
      ((g.board k).isOccupied = true ↔ ∃ j, (g'.players j).position = (k.val : Int)) := by
    intro k hki hvac
    rw [hg k]
    constructor
    · rintro ⟨j, hj⟩
      by_cases hjc : j = cp
      · subst hjc; exact hvac hj.symm
      · exact ⟨j, by rw [hother j hjc]; exact hj⟩
    · rintro ⟨j, hj⟩
      by_cases hjc : j = cp
      · subst hjc
        exfalso
        apply hki
        apply Fin.ext
        have : (k.val : Int) = (i.val : Int) := by rw [← hj, hcp, hiq]
        exact_mod_cast this
      · exact ⟨j, by rw [← hother j hjc]; exact hj⟩
  intro k
  rcases hb with ⟨hs, hb⟩ | ⟨hs, o, ho, hb⟩
  · rw [stillOccupied_iff] at hs
    rw [hb]
    by_cases hk : k = i
    · subst hk
      simp only [Function.update_same, true_iff]
      exact ⟨cp, by rw [hcp, hiq]⟩
    · rw [Function.update_noteq hk]
      exact key k hk (fun hv => by rw [hv]; exact hs)
  · have hop := index?_eq_some ho
    have hnone : ¬ ∃ j, (g'.players j).position = (g.players cp).position := by
      rw [← stillOccupied_iff, hs]; simp
    rw [hb]
    by_cases hko : k = o
    · subst hko
      simp only [Function.update_same, Bool.false_eq_true, false_iff]
      rw [hop]; exact hnone
    · rw [Function.update_noteq hko]
      by_cases hk : k = i
      · subst hk
        simp only [Function.update_same, true_iff]
        exact ⟨cp, by rw [hcp, hiq]⟩
      · rw [Function.update_noteq hk]
        apply key k hk
        intro hv
        exfalso
        apply hko
        apply Fin.ext
        have : (k.val : Int) = (o.val : Int) := by rw [hv, hop]
        exact_mod_cast this

theorem reset_Game_boardOk (g : Game) : BoardOk (reset_Game g) := fun _ => rfl

theorem reset_Game_positionsOk (g : Game) : PositionsOk (reset_Game g) := by
  intro c; simp [reset_Game]

theorem reset_Game_occupancyOk (g : Game) : OccupancyOk (reset_Game g) := by
  intro i
  simp only [reset_Game]
  constructor
  · intro h
    refine ⟨0, ?_⟩
    by_cases hi : i.val = 0
    · simp [hi]
    · simp [hi] at h
  · rintro ⟨c, hc⟩
    have : i.val = 0 := by exact_mod_cast hc.symm
    simp [this]

theorem Reachable.boardOk {g : Game} (h : Reachable g) : BoardOk g := by
  induction h with
  | reset g => exact reset_Game_boardOk g
  | move fuel c r _ _ _ _ hstep ih => exact update_Position_boardOk hstep ih

theorem Reachable.positionsOk {g : Game} (h : Reachable g) : PositionsOk g := by
  induction h with
  | reset g => exact reset_Game_positionsOk g
  | move fuel c r _ _ _ _ hstep ih => exact update_Position_positionsOk hstep ih

theorem Reachable.occupancyOk {g : Game} (h : Reachable g) : OccupancyOk g := by
  induction h with
  | reset g => exact reset_Game_occupancyOk g
  | move fuel c r _ _ _ _ hstep ih => exact update_Position_occupancyOk hstep ih

/-! ## Every move on a board of `reset_Game` returns -/

set_option maxRecDepth 100000 in
theorem moveLoop_table : ∀ p : Fin 24, ∀ r : Fin 13, 2 ≤ r.val →
    (moveLoop (reset_Game initialGame).board (p.val : Int) (r.val : Int) 4
      (p.val : Int)).toOption.isSome = true := by
  decide

theorem moveLoop_returns {board : Fin NUM_BOARD_SPACES → Space}
    (hb : ∀ i, (board i).special = get_Special (i.val : Int))
    {p r : Int} (hp0 : 0 ≤ p) (hp1 : p ≤ 23) (hr0 : 2 ≤ r) (hr1 : r ≤ 12)
    {fuel : Nat} (hf : 4 ≤ fuel) :
    ∃ q out, moveLoop board p r fuel p = .ok (q, out) := by
  have hcongr := @moveLoop_congr board (reset_Game initialGame).board
    (fun i => by rw [hb i]; rfl) p r 4 p
  have ht := moveLoop_table ⟨p.toNat, by omega⟩ ⟨r.toNat, by omega⟩ (by simp only; omega)
  have hpe : ((p.toNat : Nat) : Int) = p := by omega
  have hre : ((r.toNat : Nat) : Int) = r := by omega
  simp only [hpe, hre] at ht
  rw [← hcongr] at ht
  cases hm : moveLoop board p r 4 p with
  | error e => rw [hm] at ht; simp [Except.toOption] at ht
  | ok res => exact ⟨res.1, res.2, moveLoop_mono board p r hf hm⟩

theorem update_Position_returns {g : Game} (hb : BoardOk g) (hp : PositionsOk g)
    {c r : Int} (hc : c = 0 ∨ c = 1) (hr0 : 2 ≤ r) (hr1 : r ≤ 12) {fuel : Nat} (hf : 4 ≤ fuel) :
    ∃ g' out, update_Position fuel c r g = .ok (g', out) := by
  obtain ⟨cp, hcp, -⟩ := index?_of_range (n := MAX_PLAYERS) (x := c)
    (by omega) (by simp only [Nat.cast_ofNat]; omega)
  obtain ⟨q, out, hloop⟩ := moveLoop_returns hb (hp cp).1 (hp cp).2 hr0 hr1 hf
  have hq := moveLoop_range g.board _ r (hp cp).1 (hp cp).2 _ _ _ _ hloop
  obtain ⟨i, hi, -⟩ := index?_of_range (n := NUM_BOARD_SPACES) (x := q)
    hq.1 (by simp only [Nat.cast_ofNat]; omega)
  obtain ⟨o, ho, -⟩ := index?_of_range (n := NUM_BOARD_SPACES) (x := (g.players cp).position)
    (hp cp).1 (by simp only [Nat.cast_ofNat]; have := (hp cp).2; omega)
  unfold update_Position
  simp only [hcp, hloop, hi, ho]
  split
  · exact ⟨_, _, rfl⟩
  · exact ⟨_, _, rfl⟩

/-! ## Invariants of the reachable states -/

/-- C1. Occupancy invariant: in every state reachable from `reset_Game` by
calls of `update_Position` (player 0 or 1, rolls 2 to 12), a space of the
board is flagged occupied if and only if some player's position equals its
index. -/
theorem occupancy_invariant (g : Game) (h : Reachable g) (i : Fin NUM_BOARD_SPACES) :
    (g.board i).isOccupied = true ↔
      ∃ c : Fin MAX_PLAYERS, (g.players c).position = (i.val : Int) :=
  h.occupancyOk i

theorem occupancy_invariant_witness :
    ∃ g out, update_Position 4 1 5 (reset_Game initialGame) = .ok (g, out) ∧
      (g.players 0).position = 0 ∧ (g.players 1).position = 11 ∧
      ((g.board 11).isOccupied = true ↔
        ∃ c : Fin MAX_PLAYERS, (g.players c).position = ((11 : Fin NUM_BOARD_SPACES).val : Int)) :=
  have hstep : update_Position 4 1 5 (reset_Game initialGame) =
      .ok ((match update_Position 4 1 5 (reset_Game initialGame) with
            | .ok (g, _) => g
            | .error _ => initialGame), [MSG_BRIDGE, MSG_NEW_SPACE 11]) := by rfl
  ⟨_, _, hstep, by rfl, by rfl,
    occupancy_invariant _
      (Reachable.move 4 1 5 (Reachable.reset initialGame) (Or.inr rfl) (by decide) (by decide)
        hstep) 11⟩

/-- C2. Position range invariant: in every state reachable from `reset_Game`
every player's position lies in 0..23; and on a board of `reset_Game`, from
any positions in 0..23, a move of player 0 or 1 with a roll from 2 to 12
returns and leaves every position in 0..23 again. -/
theorem position_range_invariant :
    (∀ g : Game, Reachable g →
      ∀ c : Fin MAX_PLAYERS, 0 ≤ (g.players c).position ∧ (g.players c).position ≤ 23) ∧
    (∀ (g : Game) (c r : Int), BoardOk g →
      (∀ j : Fin MAX_PLAYERS, 0 ≤ (g.players j).position ∧ (g.players j).position ≤ 23) →
      c = 0 ∨ c = 1 → 2 ≤ r → r ≤ 12 →
      ∃ g' out, update_Position 4 c r g = .ok (g', out) ∧
        ∀ j : Fin MAX_PLAYERS, 0 ≤ (g'.players j).position ∧ (g'.players j).position ≤ 23) := by
  refine ⟨fun g h => h.positionsOk, ?_⟩
  intro g c r hb hp hc hr0 hr1
  obtain ⟨g', out, h⟩ := update_Position_returns hb hp hc hr0 hr1 (le_refl 4)
  exact ⟨g', out, h, update_Position_positionsOk h hp⟩

theorem position_range_invariant_witness :
    (∀ c : Fin MAX_PLAYERS, 0 ≤ ((reset_Game initialGame).players c).position ∧
        ((reset_Game initialGame).players c).position ≤ 23) ∧
    (∃ g' out, update_Position 4 0 12 (reset_Game initialGame) = .ok (g', out) ∧
        ∀ j : Fin MAX_PLAYERS, 0 ≤ (g'.players j).position ∧ (g'.players j).position ≤ 23) :=
  ⟨position_range_invariant.1 _ (Reachable.reset initialGame),
   position_range_invariant.2 (reset_Game initialGame) 0 12 (reset_Game_boardOk _)
     (reset_Game_positionsOk _) (Or.inl rfl) (by decide) (by decide)⟩

/-! ## Resolving a move along its landings -/

theorem specialAt_eq_some {board : Fin NUM_BOARD_SPACES → Space} {x : Int} {s : Char}
    (h : specialAt board x = some s) :
    ∃ i, index? NUM_BOARD_SPACES x = some i ∧ (board i).special = s := by
  unfold specialAt at h
  cases hi : index? NUM_BOARD_SPACES x with
  | none => rw [hi] at h; cases h
  | some i =>
    rw [hi] at h
    simp only [Option.map_some', Option.some.injEq] at h
    exact ⟨i, rfl, h⟩

theorem specialAt_val (board : Fin NUM_BOARD_SPACES → Space) (i : Fin NUM_BOARD_SPACES) :
    specialAt board (i.val : Int) = some (board i).special := by
  unfold specialAt
  rw [index?_val]
  rfl

theorem landing_succ (roll x : Int) (k : Nat) :
    landing roll x (k + 1) = landing roll (advance x roll) k := by
  unfold landing
  rw [Function.iterate_succ_apply]

theorem moveLoop_goose (board : Fin NUM_BOARD_SPACES → Space) (orig roll : Int) (fuel : Nat)
    (x : Int) (h : specialAt board (advance x roll) = some SYM_GOOSE) :
    moveLoop board orig roll (fuel + 1) x =
      match moveLoop board orig roll fuel (advance x roll) with
      | .error e => .error e
      | .ok (final, out) => .ok (final, MSG_GOOSE :: out) := by
  obtain ⟨i, hi, hs⟩ := specialAt_eq_some h
  rw [moveLoop]
  simp only [hi, hs, if_true]

theorem moveLoop_end (board : Fin NUM_BOARD_SPACES → Space) (orig roll : Int) (fuel : Nat)
    (x : Int) {s : Char} (h : specialAt board (advance x roll) = some s) (hs : s ≠ SYM_GOOSE) :
    moveLoop board orig roll (fuel + 1) x = .ok (resolve orig (advance x roll) s) := by
  obtain ⟨i, hi, hsi⟩ := specialAt_eq_some h
  rw [moveLoop]
  simp only [hi, hsi, if_neg hs, resolve]
  split_ifs <;> rfl

theorem moveLoop_chain (board : Fin NUM_BOARD_SPACES → Space) (orig roll : Int) (fuel : Nat) :
    ∀ (k : Nat) (x : Int) {s : Char},
      (∀ j, j < k → specialAt board (landing roll x (j + 1)) = some SYM_GOOSE) →
      specialAt board (landing roll x (k + 1)) = some s → s ≠ SYM_GOOSE →
      moveLoop board orig roll (fuel + k + 1) x =
        .ok ((resolve orig (landing roll x (k + 1)) s).1,
             List.replicate k MSG_GOOSE ++ (resolve orig (landing roll x (k + 1)) s).2) := by
  intro k
  induction k with
  | zero =>
    intro x s _ hend hs
    rw [moveLoop_end board orig roll fuel x (by simpa [landing] using hend) hs]
    simp [landing]
  | succ n ih =>
    intro x s hgoose hend hs
    have h0 : specialAt board (advance x roll) = some SYM_GOOSE := by
      simpa [landing] using hgoose 0 (Nat.succ_pos n)
    have hrec := ih (advance x roll) (s := s)
      (fun j hj => by rw [← landing_succ]; exact hgoose (j + 1) (Nat.succ_lt_succ hj))
      (by rw [← landing_succ]; exact hend) hs
    have hfuel : fuel + (n + 1) + 1 = (fuel + n + 1) + 1 := by omega
    rw [hfuel, moveLoop_goose board orig roll _ x h0, hrec, ← landing_succ]
    simp [List.replicate_succ]

theorem update_Position_of_moveLoop {g : Game} {fuel : Nat} (c : Fin MAX_PLAYERS) {r q : Int}
    {out : List String}
    (hloop : moveLoop g.board (g.players c).position r fuel (g.players c).position = .ok (q, out))
    (hp0 : 0 ≤ (g.players c).position) (hp1 : (g.players c).position ≤ 23) :
    ∃ g', update_Position fuel (c.val : Int) r g = .ok (g', out ++ [MSG_NEW_SPACE q]) ∧
      (g'.players c).position = q ∧ ∀ j, j ≠ c → g'.players j = g.players j := by
  have hq := moveLoop_range g.board _ r hp0 hp1 _ _ _ _ hloop
  obtain ⟨i, hi, -⟩ := index?_of_range (n := NUM_BOARD_SPACES) (x := q)
    hq.1 (by simp only [Nat.cast_ofNat]; omega)
  obtain ⟨o, ho, -⟩ := index?_of_range (n := NUM_BOARD_SPACES) (x := (g.players c).position)
    hp0 (by simp only [Nat.cast_ofNat]; omega)
  unfold update_Position
  simp only [index?_val, hloop, hi, ho]
  split
  · exact ⟨_, rfl, by simp, fun j hj => by simp [Function.update_noteq hj]⟩
  · exact ⟨_, rfl, by simp, fun j hj => by simp [Function.update_noteq hj]⟩

/-! ## The effects of the spaces -/

/-- C3. Plain move: for every player, from a position `p` in 0..23 with a roll
`r` such that `p + r` is an index of the board (so `p + r ≤ 23`) whose space
has no effect, `update_Position` returns, leaves the player on `p + r`, and
prints only the closing line, no goose, bridge, maze or skull line. -/
theorem plain_move (g : Game) (c : Fin MAX_PLAYERS) (r : Int) (fuel : Nat)
    (i : Fin NUM_BOARD_SPACES)
    (hp0 : 0 ≤ (g.players c).position) (hp1 : (g.players c).position ≤ 23)
    (hi : (i.val : Int) = (g.players c).position + r)
    (hnone : (g.board i).special = SYM_NONE) :
    ∃ g', update_Position (fuel + 1) (c.val : Int) r g =
        .ok (g', [MSG_NEW_SPACE ((g.players c).position + r)]) ∧
      (g'.players c).position = (g.players c).position + r := by
  have hlt : i.val < 24 := i.isLt
  have hadv : advance (g.players c).position r = (g.players c).position + r :=
    advance_of_le (by omega) (by omega)
  have hsp : specialAt g.board (advance (g.players c).position r) = some SYM_NONE := by
    rw [hadv, ← hi, specialAt_val, hnone]
  have hloop := moveLoop_end g.board (g.players c).position r fuel _ hsp (by decide)
  have hres : resolve (g.players c).position (advance (g.players c).position r) SYM_NONE =
      ((g.players c).position + r, []) := by
    rw [hadv]
    simp [resolve, SYM_NONE, SYM_BRIDGE, SYM_MAZE, SYM_SKULL]
  rw [hres] at hloop
  obtain ⟨g', h1, h2, -⟩ := update_Position_of_moveLoop c hloop hp0 hp1
  exact ⟨g', by simpa using h1, h2⟩

theorem plain_move_witness :
    ∃ g', update_Position 1 0 9 (reset_Game initialGame) = .ok (g', [MSG_NEW_SPACE (0 + 9)]) ∧
      (g'.players 0).position = 0 + 9 :=
  plain_move (reset_Game initialGame) 0 9 0 9 (by decide) (by decide) (by decide) (by decide)

theorem overshoot_move (g : Game) (c : Fin MAX_PLAYERS) (r : Int) (fuel : Nat)
    (i : Fin NUM_BOARD_SPACES)
    (hp0 : 0 ≤ (g.players c).position) (hp1 : (g.players c).position ≤ 23)
    (hover : 23 < (g.players c).position + r) (hi : (i.val : Int) = 46 - ((g.players c).position + r))
    (hnone : (g.board i).special = SYM_NONE) :
    ∃ g', update_Position (fuel + 1) (c.val : Int) r g =
        .ok (g', [MSG_NEW_SPACE (46 - ((g.players c).position + r))]) ∧
      (g'.players c).position = 46 - ((g.players c).position + r) := by
  have hlt : i.val < 24 := i.isLt
  have hadv : advance (g.players c).position r = 46 - ((g.players c).position + r) :=
    advance_of_gt hover (by omega)
  have hsp : specialAt g.board (advance (g.players c).position r) = some SYM_NONE := by
    rw [hadv, ← hi, specialAt_val, hnone]
  have hloop := moveLoop_end g.board (g.players c).position r fuel _ hsp (by decide)
  have hres : resolve (g.players c).position (advance (g.players c).position r) SYM_NONE =
      (46 - ((g.players c).position + r), []) := by
    rw [hadv]
    simp [resolve, SYM_NONE, SYM_BRIDGE, SYM_MAZE, SYM_SKULL]
  rw [hres] at hloop
  obtain ⟨g', h1, h2, -⟩ := update_Position_of_moveLoop c hloop hp0 hp1
  exact ⟨g', by simpa using h1, h2⟩

/-- C4. Overshoot reflection: from a position `p` in 0..23 with a roll `r` in
2..12 such that `p + r > 23`, the landing index is `23 - (p + r - 23)`, that is
`46 - (p + r)`, an index of the board; when its space has no effect the move
returns and ends there.  In particular from position 20 the roll 7 leads to
position 19. -/
theorem overshoot_reflection :
    (∀ (g : Game) (c : Fin MAX_PLAYERS) (r : Int) (fuel : Nat),
      0 ≤ (g.players c).position → (g.players c).position ≤ 23 → 2 ≤ r → r ≤ 12 →
      23 < (g.players c).position + r →
      advance (g.players c).position r = 23 - ((g.players c).position + r - 23) ∧
      23 - ((g.players c).position + r - 23) = 46 - ((g.players c).position + r) ∧
      0 ≤ 46 - ((g.players c).position + r) ∧ 46 - ((g.players c).position + r) ≤ 23 ∧
      ∀ i : Fin NUM_BOARD_SPACES, (i.val : Int) = 46 - ((g.players c).position + r) →
        (g.board i).special = SYM_NONE →
        ∃ g', update_Position (fuel + 1) (c.val : Int) r g =
            .ok (g', [MSG_NEW_SPACE (46 - ((g.players c).position + r))]) ∧
          (g'.players c).position = 46 - ((g.players c).position + r)) ∧
    (∃ g', update_Position 1 0 7 (gameAt 20 0) = .ok (g', [MSG_NEW_SPACE 19]) ∧
      (g'.players 0).position = 19) := by
  refine ⟨?_, ?_⟩
  · intro g c r fuel hp0 hp1 hr0 hr1 hover
    refine ⟨?_, by omega, by omega, by omega, ?_⟩
    · rw [advance_of_gt hover (by omega)]; omega
    · intro i hi hnone
      exact overshoot_move g c r fuel i hp0 hp1 hover hi hnone
  · exact overshoot_move (gameAt 20 0) 0 7 0 19 (by decide) (by decide) (by decide)
      (by decide) (by decide)

theorem overshoot_reflection_witness :
    advance 23 2 = 23 - (23 + 2 - 23) ∧
    ∃ g', update_Position 1 1 2 (gameAt 0 23) = .ok (g', [MSG_NEW_SPACE (46 - (23 + 2))]) ∧
      (g'.players 1).position = 46 - (23 + 2) :=
  have h := overshoot_reflection.1 (gameAt 0 23) 1 2 0 (by decide) (by decide) (by decide)
    (by decide) (by decide)
  ⟨h.1, h.2.2.2.2 21 (by decide) (by decide)⟩

/-- C5. ExtraMove chaining: whenever the (possibly reflected) landing
`advance x r` is a goose space, the loop goes on from that landing with the
same roll `r` and the same pre-move position, adding one goose line; so a move
of `update_Position` from `p` whose first landing is a goose space ends where
the loop started on that landing ends.  From `p = 2` with `r = 4` the landings
6, 10 and 14 are goose spaces, each triggers a re-move, and the move ends on
18. -/
theorem extra_move_chaining :
    (∀ (board : Fin NUM_BOARD_SPACES → Space) (p r x : Int) (fuel : Nat),
      specialAt board (advance x r) = some SYM_GOOSE →
      moveLoop board p r (fuel + 1) x =
        match moveLoop board p r fuel (advance x r) with
        | .error e => .error e
        | .ok (final, out) => .ok (final, MSG_GOOSE :: out)) ∧
    (∀ (g : Game) (c : Fin MAX_PLAYERS) (r : Int) (fuel : Nat) (q : Int) (out : List String),
      0 ≤ (g.players c).position → (g.players c).position ≤ 23 →
      specialAt g.board (advance (g.players c).position r) = some SYM_GOOSE →
      moveLoop g.board (g.players c).position r fuel (advance (g.players c).position r) =
        .ok (q, out) →
      ∃ g', update_Position (fuel + 1) (c.val : Int) r g =
          .ok (g', MSG_GOOSE :: out ++ [MSG_NEW_SPACE q]) ∧
        (g'.players c).position = q) ∧
    (advance 2 4 = 6 ∧ advance 6 4 = 10 ∧ advance 10 4 = 14 ∧ advance 14 4 = 18 ∧
      get_Special 6 = SYM_GOOSE ∧ get_Special 10 = SYM_GOOSE ∧ get_Special 14 = SYM_GOOSE ∧
      get_Special 18 = SYM_NONE ∧
      ∃ g', update_Position 4 0 4 (gameAt 2 0) =
          .ok (g', [MSG_GOOSE, MSG_GOOSE, MSG_GOOSE, MSG_NEW_SPACE 18]) ∧
        (g'.players 0).position = 18) := by
  refine ⟨?_, ?_, ?_⟩
  · intro board p r x fuel h
    exact moveLoop_goose board p r fuel x h
  · intro g c r fuel q out hp0 hp1 hgoose hloop
    have h := moveLoop_goose g.board (g.players c).position r fuel _ hgoose
    rw [hloop] at h
    obtain ⟨g', h1, h2, -⟩ := update_Position_of_moveLoop c h hp0 hp1
    exact ⟨g', by simpa using h1, h2⟩
  · refine ⟨by decide, by decide, by decide, by decide, by decide, by decide, by decide,
      by decide, ?_⟩
    have hloop : moveLoop (gameAt 2 0).board ((gameAt 2 0).players 0).position 4 4
        ((gameAt 2 0).players 0).position = .ok (18, [MSG_GOOSE, MSG_GOOSE, MSG_GOOSE]) := by
      rfl
    obtain ⟨g', h1, h2, -⟩ := update_Position_of_moveLoop (g := gameAt 2 0) 0 hloop
      (by decide) (by decide)
    exact ⟨g', by simpa using h1, h2⟩

theorem extra_move_chaining_witness :
    ∃ g', update_Position (1 + 1) 0 10 (reset_Game initialGame) =
        .ok (g', MSG_GOOSE :: [] ++ [MSG_NEW_SPACE 20]) ∧
      (g'.players 0).position = 20 :=
  extra_move_chaining.2.1 (reset_Game initialGame) 0 10 1 20 [] (by decide) (by decide)
    (by decide) (by rfl)

theorem chain_move (g : Game) (c : Fin MAX_PLAYERS) (r : Int) (fuel k : Nat) {s : Char}
    (hp0 : 0 ≤ (g.players c).position) (hp1 : (g.players c).position ≤ 23)
    (hgoose : ∀ j, j < k →
      specialAt g.board (landing r (g.players c).position (j + 1)) = some SYM_GOOSE)
    (hend : specialAt g.board (landing r (g.players c).position (k + 1)) = some s)
    (hs : s ≠ SYM_GOOSE) :
    ∃ g', update_Position (fuel + k + 1) (c.val : Int) r g =
        .ok (g', List.replicate k MSG_GOOSE ++
          (resolve (g.players c).position (landing r (g.players c).position (k + 1)) s).2 ++
          [MSG_NEW_SPACE
            (resolve (g.players c).position (landing r (g.players c).position (k + 1)) s).1]) ∧
      (g'.players c).position =
        (resolve (g.players c).position (landing r (g.players c).position (k + 1)) s).1 := by
  have hloop := moveLoop_chain g.board (g.players c).position r fuel k _ hgoose hend hs
  obtain ⟨g', h1, h2, -⟩ := update_Position_of_moveLoop c hloop hp0 hp1
  exact ⟨g', h1, h2⟩

/-- C6. Shortcut: on a board of `reset_Game`, from any position `p` in 0..23
with any roll `r` such that `p + r = 5` (the bridge index, space 6 of the
configuration), `update_Position` returns and leaves the player on index 11. -/
theorem shortcut_to_11 (g : Game) (c : Fin MAX_PLAYERS) (r : Int) (fuel : Nat)
    (hb : BoardOk g)
    (hp0 : 0 ≤ (g.players c).position) (hp1 : (g.players c).position ≤ 23)
    (hsum : (g.players c).position + r = 5) :
    ∃ g', update_Position (fuel + 1) (c.val : Int) r g =
        .ok (g', [MSG_BRIDGE, MSG_NEW_SPACE 11]) ∧
      (g'.players c).position = 11 := by
  have hadv : advance (g.players c).position r = 5 := by
    rw [advance_of_le (by omega) (by omega), hsum]
  have hend : specialAt g.board (landing r (g.players c).position (0 + 1)) = some SYM_BRIDGE := by
    have h5 := specialAt_val g.board 5
    rw [hb 5] at h5
    simpa [landing, hadv] using h5
  obtain ⟨g', h1, h2⟩ := chain_move g c r fuel 0 hp0 hp1 (fun j hj => absurd hj (by omega)) hend
    (by decide)
  have hres : ∀ x y : Int, resolve x y SYM_BRIDGE = (11, [MSG_BRIDGE]) := by
    intro x y; simp [resolve]
  rw [hres] at h1 h2
  exact ⟨g', by simpa using h1, h2⟩

theorem shortcut_to_11_witness :
    ∃ g', update_Position (0 + 1) 1 5 (reset_Game initialGame) =
        .ok (g', [MSG_BRIDGE, MSG_NEW_SPACE 11]) ∧
      (g'.players 1).position = 11 :=
  shortcut_to_11 (reset_Game initialGame) 1 5 0 (reset_Game_boardOk _) (by decide) (by decide)
    (by decide)

/-- C7. Blocked: from a position `p` in 0..23, if the move lands on a maze
space, directly or after overshoot reflection (`k = 0`) or after `k` goose
re-moves, then `update_Position` returns and the player's position is `p`
again; this for any roll.  The maze space of the board of `reset_Game` is index
12, reached from `p = 8` with `r = 4` directly and from `p = 0` with `r = 6`
over the goose space 6. -/
theorem blocked_reverts :
    (∀ (g : Game) (c : Fin MAX_PLAYERS) (r : Int) (fuel k : Nat),
      0 ≤ (g.players c).position → (g.players c).position ≤ 23 →
      (∀ j, j < k →
        specialAt g.board (landing r (g.players c).position (j + 1)) = some SYM_GOOSE) →
      specialAt g.board (landing r (g.players c).position (k + 1)) = some SYM_MAZE →
      ∃ g', update_Position (fuel + k + 1) (c.val : Int) r g =
          .ok (g', List.replicate k MSG_GOOSE ++
            [MSG_MAZE, MSG_NEW_SPACE (g.players c).position]) ∧
        (g'.players c).position = (g.players c).position) ∧
    (∀ i : Fin NUM_BOARD_SPACES, get_Special (i.val : Int) = SYM_MAZE ↔ i.val = 12) ∧
    (landing 4 8 1 = 12 ∧ landing 6 0 1 = 6 ∧ landing 6 0 2 = 12 ∧
      get_Special 6 = SYM_GOOSE) := by
  refine ⟨?_, by decide, by decide⟩
  intro g c r fuel k hp0 hp1 hgoose hend
  obtain ⟨g', h1, h2⟩ := chain_move g c r fuel k hp0 hp1 hgoose hend (by decide)
  have hres : ∀ x y : Int, resolve x y SYM_MAZE = (x, [MSG_MAZE]) := by
    intro x y; simp [resolve, SYM_MAZE, SYM_BRIDGE]
  rw [hres] at h1 h2
  exact ⟨g', by simpa using h1, h2⟩

theorem blocked_reverts_witness :
    (∃ g', update_Position (0 + 0 + 1) 0 4 (gameAt 8 0) =
        .ok (g', List.replicate 0 MSG_GOOSE ++ [MSG_MAZE, MSG_NEW_SPACE 8]) ∧
      (g'.players 0).position = 8) ∧
    (∃ g', update_Position (0 + 1 + 1) 1 6 (reset_Game initialGame) =
        .ok (g', List.replicate 1 MSG_GOOSE ++ [MSG_MAZE, MSG_NEW_SPACE 0]) ∧
      (g'.players 1).position = 0) :=
  ⟨blocked_reverts.1 (gameAt 8 0) 0 4 0 0 (by decide) (by decide)
      (fun j hj => absurd hj (by omega)) (by decide),
   blocked_reverts.1 (reset_Game initialGame) 1 6 0 1 (by decide) (by decide)
      (by decide) (by decide)⟩

/-- C8. ResetToStart: from a position `p` in 0..23, if the move lands on a
skull space, directly or after overshoot reflection (`k = 0`) or after `k`
goose re-moves, then `update_Position` returns and the player's position is 0;
this for any roll.  The skull space of the board of `reset_Game` is index 22,
the landing whenever `p + r = 24`, and reached from `p = 4` with `r = 10` over
the goose space 14. -/
theorem skull_resets :
    (∀ (g : Game) (c : Fin MAX_PLAYERS) (r : Int) (fuel k : Nat),
      0 ≤ (g.players c).position → (g.players c).position ≤ 23 →
      (∀ j, j < k →
        specialAt g.board (landing r (g.players c).position (j + 1)) = some SYM_GOOSE) →
      specialAt g.board (landing r (g.players c).position (k + 1)) = some SYM_SKULL →
      ∃ g', update_Position (fuel + k + 1) (c.val : Int) r g =
          .ok (g', List.replicate k MSG_GOOSE ++ [MSG_SKULL, MSG_NEW_SPACE 0]) ∧
        (g'.players c).position = 0) ∧
    (∀ i : Fin NUM_BOARD_SPACES, get_Special (i.val : Int) = SYM_SKULL ↔ i.val = 22) ∧
    (∀ p r : Int, p + r = 24 → landing r p 1 = 22) ∧
    (landing 10 4 1 = 14 ∧ landing 10 4 2 = 22 ∧ get_Special 14 = SYM_GOOSE) := by
  refine ⟨?_, by decide, ?_, by decide⟩
  · intro g c r fuel k hp0 hp1 hgoose hend
    obtain ⟨g', h1, h2⟩ := chain_move g c r fuel k hp0 hp1 hgoose hend (by decide)
    have hres : ∀ x y : Int, resolve x y SYM_SKULL = (0, [MSG_SKULL]) := by
      intro x y; simp [resolve, SYM_SKULL, SYM_MAZE, SYM_BRIDGE]
    rw [hres] at h1 h2
    exact ⟨g', by simpa using h1, h2⟩
  · intro p r h
    have : advance p r = 22 := by rw [advance_of_gt (by omega) (by omega)]; omega
    simpa [landing] using this

theorem skull_resets_witness :
    (∃ g', update_Position (0 + 0 + 1) 0 4 (gameAt 20 0) =
        .ok (g', List.replicate 0 MSG_GOOSE ++ [MSG_SKULL, MSG_NEW_SPACE 0]) ∧
      (g'.players 0).position = 0) ∧
    (∃ g', update_Position (0 + 1 + 1) 1 10 (gameAt 0 4) =
        .ok (g', List.replicate 1 MSG_GOOSE ++ [MSG_SKULL, MSG_NEW_SPACE 0]) ∧
      (g'.players 1).position = 0) :=
  ⟨skull_resets.1 (gameAt 20 0) 0 4 0 0 (by decide) (by decide)
      (fun j hj => absurd hj (by omega)) (by decide),
   skull_resets.1 (gameAt 0 4) 1 10 0 1 (by decide) (by decide)
      (by decide) (by decide)⟩

/-! ## Turn order -/

theorem finRange_players : List.finRange MAX_PLAYERS = [0, 1] := by decide

theorem roundLoop_tie (s : FirstPlayerState) (t : Int) (dice : List Int) (ht : 0 < t)
    (h0 : s.rollers 0 = true) (h1 : s.rollers 1 = true) :
    ∃ s', roundLoop (List.finRange MAX_PLAYERS) (t :: t :: dice) 0 s =
        .ok (dice, s', [(0, t), (1, t)]) ∧
      s'.rollers 0 = true ∧ s'.rollers 1 = true ∧ s'.tiesExist = true := by
  rw [finRange_players]
  simp [roundLoop, h0, h1, ht, Function.update]

theorem roundLoop_decisive (s : FirstPlayerState) (a b : Int) (dice : List Int) (ha : 0 < a)
    (hab : a ≠ b) (h0 : s.rollers 0 = true) (h1 : s.rollers 1 = true) :
    ∃ s', roundLoop (List.finRange MAX_PLAYERS) (a :: b :: dice) 0 s =
        .ok (dice, s', [(0, a), (1, b)]) ∧
      s'.tiesExist = false ∧ (s'.firstPlayer.val : Int) = if a > b then 0 else 1 := by
  rw [finRange_players]
  rcases lt_or_gt_of_ne hab with hlt | hgt
  · have h2 : ¬ a > b := by omega
    simp [roundLoop, h0, h1, ha, Function.update, hlt, h2]
  · have h2 : ¬ a < b := by omega
    have h3 : ¬ b = a := by omega
    simp [roundLoop, h0, h1, ha, Function.update, hgt, h2, h3]

theorem firstPlayerLoop_ties (a b : Int) (rest : List Int) (fuel : Nat) (ha : 0 < a)
    (hab : a ≠ b) :
    ∀ (ties : List Int) (s : FirstPlayerState), (∀ t ∈ ties, 0 < t) →
      s.rollers 0 = true → s.rollers 1 = true →
      firstPlayerLoop (fuel + ties.length + 1)
          (ties.flatMap (fun t => [t, t]) ++ a :: b :: rest) s =
        .ok ((if a > b then 0 else 1), rest,
          ties.flatMap (fun t => [((0 : Int), t), ((1 : Int), t)]) ++ [(0, a), (1, b)]) := by
  intro ties
  induction ties with
  | nil =>
    intro s _ h0 h1
    obtain ⟨s', hr, hties, hfirst⟩ := roundLoop_decisive s a b rest ha hab h0 h1
    simp only [List.length_nil, Nat.add_zero, List.flatMap_nil, List.nil_append]
    rw [firstPlayerLoop]
    simp only [hr, hties, hfirst]
    simp
  | cons t ts ih =>
    intro s hpos h0 h1
    have ht : 0 < t := hpos t (List.mem_cons_self t ts)
    obtain ⟨s', hr, h0', h1', hties⟩ :=
      roundLoop_tie s t (ts.flatMap (fun t => [t, t]) ++ a :: b :: rest) ht h0 h1
    have hrec := ih s' (fun u hu => hpos u (List.mem_cons_of_mem t hu)) h0' h1'
    have hfuel : fuel + (t :: ts).length + 1 = (fuel + ts.length + 1) + 1 := by
      simp only [List.length_cons]; omega
    rw [hfuel, firstPlayerLoop]
    simp only [List.flatMap_cons, List.cons_append, List.nil_append, hr, hties, hrec, if_true]

/-- C9. Turn order: for the two players and dice totals from 2 to 12, after
`k` rounds in which both players roll the same total and one round with two
different totals `a` and `b`, `determine_First_Player` returns player 0 if
`a > b` and player 1 otherwise; both players roll in each of the `k + 1`
rounds, and exactly these `2 (k + 1)` totals are consumed.  The second total
of the last round may be any integer other than `a`. -/
theorem turn_order (ties : List Int) (a b : Int) (rest : List Int) (fuel : Nat)
    (hties : ∀ t ∈ ties, 2 ≤ t ∧ t ≤ 12) (ha : 2 ≤ a ∧ a ≤ 12) (hab : a ≠ b) :
    determine_First_Player (fuel + ties.length + 1)
        (ties.flatMap (fun t => [t, t]) ++ a :: b :: rest) =
      .ok ((if a > b then 0 else 1), rest,
        ties.flatMap (fun t => [((0 : Int), t), ((1 : Int), t)]) ++ [(0, a), (1, b)]) ∧
    (ties.flatMap (fun t => [((0 : Int), t), ((1 : Int), t)]) ++ [(0, a), (1, b)]).length =
      2 * (ties.length + 1) ∧
    (ties.flatMap (fun t => [t, t]) ++ a :: b :: rest).length = 2 * (ties.length + 1) + rest.length := by
  refine ⟨?_, ?_, ?_⟩
  · exact firstPlayerLoop_ties a b rest fuel (by omega) hab ties _
      (fun t ht => by have := hties t ht; omega) rfl rfl
  · induction ties with
    | nil => simp; try omega
    | cons t ts ih =>
      have := ih (fun u hu => hties u (List.mem_cons_of_mem t hu))
      simp only [List.flatMap_cons, List.cons_append, List.nil_append, List.length_cons] at this ⊢
      omega
  · induction ties with
    | nil => simp; try omega
    | cons t ts ih =>
      have := ih (fun u hu => hties u (List.mem_cons_of_mem t hu))
      simp only [List.flatMap_cons, List.cons_append, List.nil_append, List.length_cons] at this ⊢
      omega

theorem turn_order_witness :
    determine_First_Player 2 [9, 9, 5, 8, 7] =
      .ok (1, [7], [(0, 9), (1, 9), (0, 5), (1, 8)]) :=
  (turn_order [9] 5 8 [7] 0 (by decide) (by decide) (by decide)).1

/-! ## Win detection -/

theorem print_Board_iff (g : Game) :
    print_Board g = true ↔
      (g.board 23).isOccupied = true ∧ ∃ j : Fin MAX_PLAYERS, (g.players j).position = 23 := by
  unfold print_Board
  simp only [List.any_eq_true, List.mem_finRange, true_and, Bool.and_eq_true, beq_iff_eq,
    Nat.cast_ofNat]
  constructor
  · rintro ⟨i, hocc, j, hj, hi⟩
    have hi23 : i = 23 := by
      apply Fin.ext
      have : (i.val : Int) = 23 := by omega
      have h2 : i.val = 23 := by exact_mod_cast this
      simpa using h2
    subst hi23
    exact ⟨hocc, j, by rw [hj]; rfl⟩
  · rintro ⟨hocc, j, hj⟩
    exact ⟨23, hocc, j, by rw [hj]; rfl, by decide⟩

theorem print_Board_iff_of_occupancyOk {g : Game} (hg : OccupancyOk g) :
    print_Board g = true ↔ ∃ j : Fin MAX_PLAYERS, (g.players j).position = 23 := by
  rw [print_Board_iff]
  constructor
  · exact fun h => h.2
  · intro h
    exact ⟨(hg 23).2 (by simpa using h), h⟩

theorem next_Player_cases {c : Int} (hc : c = 0 ∨ c = 1) :
    next_Player c = 0 ∨ next_Player c = 1 := by
  rcases hc with rfl | rfl
  · right; decide
  · left; decide

theorem turn_step {g : Game} (hb : BoardOk g) (hp : PositionsOk g) (ho : OccupancyOk g)
    (hn : NoWinner g) {c r : Int} (hc : c = 0 ∨ c = 1) (hr0 : 2 ≤ r) (hr1 : r ≤ 12)
    {fuel : Nat} (hf : 4 ≤ fuel) :
    ∃ g' out, update_Position fuel c r g = .ok (g', out) ∧
      BoardOk g' ∧ PositionsOk g' ∧ OccupancyOk g' ∧
      (print_Board g' = true ↔ positionOf g' c = some 23) ∧
      (print_Board g' = false → NoWinner g') := by
  obtain ⟨g', out, h⟩ := update_Position_returns hb hp hc hr0 hr1 hf
  have ho' := update_Position_occupancyOk h ho
  refine ⟨g', out, h, update_Position_boardOk h hb, update_Position_positionsOk h hp, ho', ?_, ?_⟩
  · obtain ⟨cp, q, out', i, hcp, -, -, hpl, -, -⟩ := update_Position_ok h
    rw [print_Board_iff_of_occupancyOk ho']
    unfold positionOf
    rw [hcp]
    simp only [Option.map_some', Option.some.injEq]
    constructor
    · rintro ⟨j, hj⟩
      by_cases hjc : j = cp
      · subst hjc; exact hj
      · exfalso
        rw [hpl, Function.update_noteq hjc] at hj
        exact hn j hj
    · exact fun h => ⟨cp, h⟩
  · intro hfalse j hj
    have : print_Board g' = true := (print_Board_iff_of_occupancyOk ho').2 ⟨j, hj⟩
    rw [hfalse] at this
    cases this

theorem turnLoop_spec (fuel : Nat) (hf : 4 ≤ fuel) :
    ∀ (dice : List Int) (c : Int) (g : Game),
      (∀ d ∈ dice, 2 ≤ d ∧ d ≤ 12) → c = 0 ∨ c = 1 →
      BoardOk g → PositionsOk g → OccupancyOk g → NoWinner g →
      ∃ res, turnLoop fuel dice c g = .ok res ∧
        res.dice = dice.drop res.turns.length ∧
        (res.winner = none → res.turns.length = dice.length) ∧
        (∀ w, res.winner = some w →
          ∃ T, res.turns.getLast? = some T ∧ T.player = w ∧
            positionOf T.after w = some 23) ∧
        ∀ (t : Nat) (T : Turn), res.turns[t]? = some T →
          dice[t]? = some T.roll ∧
          (∃ out, handle_Player fuel T.player T.roll (stateBefore g res.turns t) =
            .ok (T.after, out)) ∧
          NoWinner (stateBefore g res.turns t) ∧
          (print_Board T.after = true ↔ positionOf T.after T.player = some 23) ∧
          (print_Board T.after = true ↔
            t + 1 = res.turns.length ∧ res.winner = some T.player) := by
  intro dice
  induction dice with
  | nil =>
    intro c g _ _ _ _ _ _
    refine ⟨_, rfl, rfl, fun _ => rfl, ?_, ?_⟩
    · intro w hw; cases hw
    · intro t T hT; simp at hT
  | cons roll dice ih =>
    intro c g hdice hc hb hp ho hn
    have hroll := hdice roll (List.mem_cons_self roll dice)
    obtain ⟨g', out, hstep, hb', hp', ho', hwin, hnone⟩ :=
      turn_step hb hp ho hn hc hroll.1 hroll.2 hf
    by_cases hpb : print_Board g' = true
    · refine ⟨{ turns := [{ player := c, roll := roll, after := g' }]
                winner := some c, dice := dice }, ?_, ?_, ?_, ?_, ?_⟩
      · rw [turnLoop]
        simp only [handle_Player, hstep, hpb, if_true]
      · simp
      · intro h; cases h
      · intro w hw
        simp only [Option.some.injEq] at hw
        subst hw
        exact ⟨_, rfl, rfl, hwin.1 hpb⟩
      · intro t T hT
        cases t with
        | zero =>
          simp only [List.getElem?_cons_zero, Option.some.injEq] at hT
          subst hT
          refine ⟨by simp, ⟨out, hstep⟩, hn, hwin, ?_⟩
          simp [hpb]
        | succ t => simp at hT
    · have hpf : print_Board g' = false := by simpa using hpb
      obtain ⟨res, hres, hd, hw0, hw1, hturns⟩ :=
        ih (next_Player c) g' (fun d hd => hdice d (List.mem_cons_of_mem roll hd))
          (next_Player_cases hc) hb' hp' ho' (hnone hpf)
      refine ⟨{ turns := { player := c, roll := roll, after := g' } :: res.turns
                winner := res.winner, dice := res.dice }, ?_, ?_, ?_, ?_, ?_⟩
      · rw [turnLoop]
        simp only [handle_Player, hstep, hpf, hres]
        simp
      · simpa using hd
      · intro h
        simp only [List.length_cons]
        rw [hw0 h]
      · intro w hw
        obtain ⟨T, hlast, hTw, hpos⟩ := hw1 w hw
        refine ⟨T, ?_, hTw, hpos⟩
        simp only [List.getLast?_cons, hlast, Option.getD_some]
      · intro t T hT
        cases t with
        | zero =>
          simp only [List.getElem?_cons_zero, Option.some.injEq] at hT
          subst hT
          refine ⟨by simp, ⟨out, hstep⟩, hn, hwin, ?_⟩
          simp only [hpf, Bool.false_eq_true, false_iff, List.length_cons, not_and]
          intro hlen hw
          have hnil : res.turns = [] := by
            apply List.eq_nil_of_length_eq_zero
            omega
          obtain ⟨T, hlast, -, -⟩ := hw1 c hw
          rw [hnil] at hlast
          simp at hlast
        | succ t =>
          simp only [List.getElem?_cons_succ] at hT
          obtain ⟨h1, h2, h3, h4, h5⟩ := hturns t T hT
          refine ⟨by simpa using h1, h2, h3, h4, ?_⟩
          rw [h5]
          simp only [List.length_cons]
          constructor
          · rintro ⟨ha, hb⟩; exact ⟨by omega, hb⟩
          · rintro ⟨ha, hb⟩; exact ⟨by omega, hb⟩

theorem roundLoop_dice :
    ∀ (players : List (Fin MAX_PLAYERS)) (dice : List Int) (highestRoll : Int)
      (s : FirstPlayerState) {dice' : List Int} {s' : FirstPlayerState}
      {calls : List (Int × Int)},
      roundLoop players dice highestRoll s = .ok (dice', s', calls) →
      ∀ d ∈ dice', d ∈ dice := by
  intro players
  induction players with
  | nil =>
    intro dice highestRoll s dice' s' calls h d hd
    simp only [roundLoop, Except.ok.injEq, Prod.mk.injEq] at h
    rw [h.1]; exact hd
  | cons i rest ih =>
    intro dice highestRoll s dice' s' calls h d hd
    unfold roundLoop at h
    split at h
    · split at h
      · cases h
      · rename_i roll dice0
        simp only at h
        split at h
        · cases h
        · rename_i dice1 s1 calls1 hrec
          simp only [Except.ok.injEq, Prod.mk.injEq] at h
          have := ih _ _ _ hrec d (by rw [h.1]; exact hd)
          exact List.mem_cons_of_mem roll this
    · exact ih _ _ _ h d hd

theorem firstPlayerLoop_result :
    ∀ (fuel : Nat) (dice : List Int) (s : FirstPlayerState) {first : Int} {dice' : List Int}
      {calls : List (Int × Int)},
      firstPlayerLoop fuel dice s = .ok (first, dice', calls) →
      (first = 0 ∨ first = 1) ∧ ∀ d ∈ dice', d ∈ dice := by
  intro fuel
  induction fuel with
  | zero => intro dice s first dice' calls h; simp [firstPlayerLoop] at h
  | succ n ih =>
    intro dice s first dice' calls h
    rw [firstPlayerLoop] at h
    split at h
    · cases h
    · rename_i dice1 s1 calls1 hround
      have hsub := roundLoop_dice _ _ _ _ hround
      split at h
      · split at h
        · cases h
        · rename_i first2 dice2 more hrec
          simp only [Except.ok.injEq, Prod.mk.injEq] at h
          obtain ⟨h1, h2⟩ := ih _ _ hrec
          refine ⟨by rw [← h.1]; exact h1, fun d hd => hsub d (h2 d (by rw [h.2.1]; exact hd))⟩
      · simp only [Except.ok.injEq, Prod.mk.injEq] at h
        refine ⟨?_, fun d hd => hsub d (by rw [h.2.1]; exact hd)⟩
        rw [← h.1]
        have hlt : s1.firstPlayer.val < 2 := s1.firstPlayer.isLt
        omega

/-- C10. Win detection: in a run of `run_Game` on dice totals from 2 to 12 in
which the first player gets determined, every turn is played from a state with
no player on index 23; after a turn `print_Board` returns true exactly when the
player who just moved stands on index 23, and exactly then the turn is the last
one of the run and that player is the announced winner; the dice after the
last turn stay unconsumed, and a run without winner has used up its dice. -/
theorem win_detection (moveFuel roundFuel : Nat) (dice : List Int) (g0 : Game)
    (first : Int) (dice' : List Int) (calls : List (Int × Int))
    (hfuel : 4 ≤ moveFuel) (hdice : ∀ d ∈ dice, 2 ≤ d ∧ d ≤ 12)
    (hfirst : determine_First_Player roundFuel dice = .ok (first, dice', calls)) :
    ∃ res, run_Game moveFuel roundFuel dice g0 = .ok res ∧
      res.dice = dice'.drop res.turns.length ∧
      (res.winner = none → res.turns.length = dice'.length) ∧
      (∀ w, res.winner = some w →
        ∃ T, res.turns.getLast? = some T ∧ T.player = w ∧ positionOf T.after w = some 23) ∧
      ∀ (t : Nat) (T : Turn), res.turns[t]? = some T →
        dice'[t]? = some T.roll ∧
        (∃ out, handle_Player moveFuel T.player T.roll
            (stateBefore (reset_Game g0) res.turns t) = .ok (T.after, out)) ∧
        NoWinner (stateBefore (reset_Game g0) res.turns t) ∧
        (print_Board T.after = true ↔ positionOf T.after T.player = some 23) ∧
        (print_Board T.after = true ↔
          t + 1 = res.turns.length ∧ res.winner = some T.player) := by
  obtain ⟨hc, hsub⟩ := firstPlayerLoop_result _ _ _ hfirst
  have hn : NoWinner (reset_Game g0) := by
    intro j; simp [reset_Game]
  obtain ⟨res, hres, h⟩ := turnLoop_spec moveFuel hfuel dice' first (reset_Game g0)
    (fun d hd => hdice d (hsub d hd)) hc (reset_Game_boardOk g0) (reset_Game_positionsOk g0)
    (reset_Game_occupancyOk g0) hn
  refine ⟨res, ?_, h⟩
  unfold run_Game
  simp only [hfirst, hres]

theorem win_detection_witness :
    (∃ res, run_Game 4 2 [9, 9, 5, 8, 11, 2, 12, 7] initialGame = .ok res ∧
      res.winner = some 1 ∧ res.dice = [7] ∧ res.turns.length = 3) ∧
    ∃ res, run_Game 4 2 [9, 9, 5, 8, 11, 2, 12, 7] initialGame = .ok res ∧
      res.dice = [11, 2, 12, 7].drop res.turns.length ∧
      (res.winner = none → res.turns.length = [11, 2, 12, (7 : Int)].length) ∧
      (∀ w, res.winner = some w →
        ∃ T, res.turns.getLast? = some T ∧ T.player = w ∧ positionOf T.after w = some 23) ∧
      ∀ (t : Nat) (T : Turn), res.turns[t]? = some T →
        [11, 2, 12, (7 : Int)][t]? = some T.roll ∧
        (∃ out, handle_Player 4 T.player T.roll
            (stateBefore (reset_Game initialGame) res.turns t) = .ok (T.after, out)) ∧
        NoWinner (stateBefore (reset_Game initialGame) res.turns t) ∧
        (print_Board T.after = true ↔ positionOf T.after T.player = some 23) ∧
        (print_Board T.after = true ↔
          t + 1 = res.turns.length ∧ res.winner = some T.player) :=
  ⟨⟨_, rfl, rfl, rfl, rfl⟩,
   win_detection 4 2 [9, 9, 5, 8, 11, 2, 12, 7] initialGame 1 [11, 2, 12, 7]
     [(0, 9), (1, 9), (0, 5), (1, 8)] (by decide) (by decide) rfl⟩

/-! ## Reset and the board model -/

/-- C11. Reset: whatever the prior state, after `reset_Game` every player's
position is 0, the space 0 is flagged occupied, no other space is, and every
space carries the symbol `get_Special` gives its index. -/
theorem reset_Game_state (g : Game) :
    (∀ c : Fin MAX_PLAYERS, ((reset_Game g).players c).position = 0) ∧
    ((reset_Game g).board 0).isOccupied = true ∧
    (∀ i : Fin NUM_BOARD_SPACES, 1 ≤ i.val →
      ((reset_Game g).board i).isOccupied = false) ∧
    (∀ i : Fin NUM_BOARD_SPACES,
      ((reset_Game g).board i).special = get_Special (i.val : Int)) := by
  refine ⟨fun c => rfl, rfl, ?_, fun i => rfl⟩
  intro i hi
  have h0 : i.val ≠ 0 := by omega
  simp [reset_Game, h0]

theorem listed_iff (spaces : List Int) (position : Int) :
    listed spaces position = true ↔ position + 1 ∈ spaces := by
  unfold listed
  simp only [List.any_eq_true, beq_iff_eq]
  constructor
  · rintro ⟨s, hs, h⟩; rw [← h]; exact hs
  · intro h; exact ⟨_, h, rfl⟩

/-- C12. Board model: the goose, bridge, maze and skull lists are pairwise
disjoint, and for every position `get_Special` returns the goose, bridge, maze
or skull symbol exactly when `position + 1` is in the list of that name, and
the symbol for no effect exactly when `position + 1` is in none of them. -/
theorem get_Special_iff :
    ((∀ k ∈ gooseSpaces, k ∉ bridgeSpaces ∧ k ∉ mazeSpaces ∧ k ∉ skullSpaces) ∧
     (∀ k ∈ bridgeSpaces, k ∉ mazeSpaces ∧ k ∉ skullSpaces) ∧
     (∀ k ∈ mazeSpaces, k ∉ skullSpaces)) ∧
    ∀ position : Int,
      (get_Special position = SYM_GOOSE ↔ position + 1 ∈ gooseSpaces) ∧
      (get_Special position = SYM_BRIDGE ↔ position + 1 ∈ bridgeSpaces) ∧
      (get_Special position = SYM_MAZE ↔ position + 1 ∈ mazeSpaces) ∧
      (get_Special position = SYM_SKULL ↔ position + 1 ∈ skullSpaces) ∧
      (get_Special position = SYM_NONE ↔
        position + 1 ∉ gooseSpaces ∧ position + 1 ∉ bridgeSpaces ∧
        position + 1 ∉ mazeSpaces ∧ position + 1 ∉ skullSpaces) := by
  refine ⟨by decide, ?_⟩
  intro position
  have hg := listed_iff gooseSpaces position
  have hb := listed_iff bridgeSpaces position
  have hm := listed_iff mazeSpaces position
  have hs := listed_iff skullSpaces position
  have dgb : position + 1 ∈ gooseSpaces → position + 1 ∉ bridgeSpaces := by
    simp only [gooseSpaces, bridgeSpaces, List.mem_cons, List.mem_singleton, List.not_mem_nil,
      or_false]
    omega
  have dgm : position + 1 ∈ gooseSpaces → position + 1 ∉ mazeSpaces := by
    simp only [gooseSpaces, mazeSpaces, List.mem_cons, List.mem_singleton, List.not_mem_nil,
      or_false]
    omega
  have dgs : position + 1 ∈ gooseSpaces → position + 1 ∉ skullSpaces := by
    simp only [gooseSpaces, skullSpaces, List.mem_cons, List.mem_singleton, List.not_mem_nil,
      or_false]
    omega
  have dbm : position + 1 ∈ bridgeSpaces → position + 1 ∉ mazeSpaces := by
    simp only [bridgeSpaces, mazeSpaces, List.mem_cons, List.mem_singleton, List.not_mem_nil,
      or_false]
    omega
  have dbs : position + 1 ∈ bridgeSpaces → position + 1 ∉ skullSpaces := by
    simp only [bridgeSpaces, skullSpaces, List.mem_cons, List.mem_singleton, List.not_mem_nil,
      or_false]
    omega
  have dms : position + 1 ∈ mazeSpaces → position + 1 ∉ skullSpaces := by
    simp only [mazeSpaces, skullSpaces, List.mem_cons, List.mem_singleton, List.not_mem_nil,
      or_false]
    omega
  have n1 : SYM_BRIDGE ≠ SYM_GOOSE := by decide
  have n2 : SYM_MAZE ≠ SYM_GOOSE := by decide
  have n3 : SYM_SKULL ≠ SYM_GOOSE := by decide
  have n4 : SYM_NONE ≠ SYM_GOOSE := by decide
  have n5 : SYM_MAZE ≠ SYM_BRIDGE := by decide
  have n6 : SYM_SKULL ≠ SYM_BRIDGE := by decide
  have n7 : SYM_NONE ≠ SYM_BRIDGE := by decide
  have n8 : SYM_SKULL ≠ SYM_MAZE := by decide
  have n9 : SYM_NONE ≠ SYM_MAZE := by decide
  have n10 : SYM_NONE ≠ SYM_SKULL := by decide
  unfold get_Special
  by_cases h1 : position + 1 ∈ gooseSpaces
  · have := dgb h1; have := dgm h1; have := dgs h1
    simp [hg.2 h1, h1, *, Ne.symm n1, Ne.symm n2, Ne.symm n3, Ne.symm n4]
  · have l1 : listed gooseSpaces position = false := by
      rw [← Bool.not_eq_true, hg]; exact h1
    by_cases h2 : position + 1 ∈ bridgeSpaces
    · have := dbm h2; have := dbs h2
      simp [l1, hb.2 h2, h1, h2, *, Ne.symm n5, Ne.symm n6, Ne.symm n7]
    · have l2 : listed bridgeSpaces position = false := by
        rw [← Bool.not_eq_true, hb]; exact h2
      by_cases h3 : position + 1 ∈ mazeSpaces
      · have := dms h3
        simp [l1, l2, hm.2 h3, h1, h2, h3, *, Ne.symm n8, Ne.symm n9]
      · have l3 : listed mazeSpaces position = false := by
          rw [← Bool.not_eq_true, hm]; exact h3
        by_cases h4 : position + 1 ∈ skullSpaces
        · simp [l1, l2, l3, hs.2 h4, h1, h2, h3, h4, *, Ne.symm n10]
        · have l4 : listed skullSpaces position = false := by
            rw [← Bool.not_eq_true, hs]; exact h4
          simp [l1, l2, l3, l4, h1, h2, h3, h4, *]

theorem reset_Game_state_witness :
    ((reset_Game (gameAt 7 23)).players 1).position = 0 ∧
      ((reset_Game (gameAt 7 23)).board 23).isOccupied = false :=
  ⟨(reset_Game_state (gameAt 7 23)).1 1, (reset_Game_state (gameAt 7 23)).2.2.1 23 (by decide)⟩

theorem get_Special_iff_witness :
    (get_Special 12 = SYM_MAZE ↔ (12 : Int) + 1 ∈ mazeSpaces) ∧
      (get_Special 29 = SYM_MAZE ↔ (29 : Int) + 1 ∈ mazeSpaces) :=
  ⟨(get_Special_iff.2 12).2.2.1, (get_Special_iff.2 29).2.2.1⟩

/-! ## Frame and index safety of a move -/

theorem update_Position_frame {fuel : Nat} {c : Fin MAX_PLAYERS} {r : Int} {g g' : Game}
    {out : List String} (h : update_Position fuel (c.val : Int) r g = .ok (g', out)) :
    (∀ j, j ≠ c → g'.players j = g.players j) ∧
    (g'.players c).name = (g.players c).name ∧
    (g'.players c).symbol = (g.players c).symbol ∧
    (∀ k : Fin NUM_BOARD_SPACES, (g'.board k).special = (g.board k).special) ∧
    (∀ k : Fin NUM_BOARD_SPACES, (k.val : Int) ≠ (g.players c).position →
      (k.val : Int) ≠ (g'.players c).position →
      (g'.board k).isOccupied = (g.board k).isOccupied) := by
  obtain ⟨cp, q, out', i, hcp, -, hi, hp, -, hb⟩ := update_Position_ok h
  rw [index?_val] at hcp
  simp only [Option.some.injEq] at hcp
  subst hcp
  have hiq := index?_eq_some hi
  have hq : (g'.players c).position = q := by rw [hp]; simp
  refine ⟨fun j hj => by rw [hp, Function.update_noteq hj], by rw [hp]; simp, by rw [hp]; simp,
    fun k => update_Position_special h k, ?_⟩
  intro k hk1 hk2
  have hki : k ≠ i := by
    intro hki
    apply hk2
    rw [hq, hki, hiq]
  rcases hb with ⟨-, hb⟩ | ⟨-, o, ho, hb⟩
  · rw [hb, Function.update_noteq hki]
  · have hko : k ≠ o := by
      intro hko
      apply hk1
      rw [hko, index?_eq_some ho]
    rw [hb, Function.update_noteq hko, Function.update_noteq hki]

/-- C13. Frame of a move: a call of `update_Position` for player `c` that
returns leaves every other player as it was, keeps the name and symbol of `c`,
keeps the symbol of every space, and keeps the occupancy flag of every index
other than the pre-move and the post-move position of `c`; on a board of
`reset_Game` with positions in 0..23 and a roll from 2 to 12 the call does
return. -/
theorem move_frame :
    (∀ (g g' : Game) (c : Fin MAX_PLAYERS) (r : Int) (fuel : Nat) (out : List String),
      update_Position fuel (c.val : Int) r g = .ok (g', out) →
      (∀ j, j ≠ c → g'.players j = g.players j) ∧
      (g'.players c).name = (g.players c).name ∧
      (g'.players c).symbol = (g.players c).symbol ∧
      (∀ k : Fin NUM_BOARD_SPACES, (g'.board k).special = (g.board k).special) ∧
      (∀ k : Fin NUM_BOARD_SPACES, (k.val : Int) ≠ (g.players c).position →
        (k.val : Int) ≠ (g'.players c).position →
        (g'.board k).isOccupied = (g.board k).isOccupied)) ∧
    (∀ (g : Game) (c : Fin MAX_PLAYERS) (r : Int), BoardOk g →
      (∀ j : Fin MAX_PLAYERS, 0 ≤ (g.players j).position ∧ (g.players j).position ≤ 23) →
      2 ≤ r → r ≤ 12 → ∃ g' out, update_Position 4 (c.val : Int) r g = .ok (g', out)) := by
  refine ⟨fun g g' c r fuel out h => update_Position_frame h, ?_⟩
  intro g c r hb hp hr0 hr1
  have hc : (c.val : Int) = 0 ∨ (c.val : Int) = 1 := by
    have : c.val < 2 := c.isLt
    omega
  exact update_Position_returns hb hp hc hr0 hr1 (le_refl 4)

theorem move_frame_witness :
    ∃ g' out, update_Position 4 1 5 (reset_Game initialGame) = .ok (g', out) ∧
      g'.players 0 = (reset_Game initialGame).players 0 ∧
      (g'.board 7).isOccupied = ((reset_Game initialGame).board 7).isOccupied :=
  have hstep : update_Position 4 1 5 (reset_Game initialGame) =
      .ok ((match update_Position 4 1 5 (reset_Game initialGame) with
            | .ok (g, _) => g
            | .error _ => initialGame), [MSG_BRIDGE, MSG_NEW_SPACE 11]) := by rfl
  have h := move_frame.1 _ _ 1 5 4 _ hstep
  ⟨_, _, hstep, h.1 0 (by decide), h.2.2.2.2 7 (by decide) (by decide)⟩

theorem advance_range {x r : Int} (hx0 : 0 ≤ x) (hx1 : x ≤ 23) (hr0 : 2 ≤ r) (hr1 : r ≤ 12) :
    0 ≤ advance x r ∧ advance x r ≤ 23 := by
  by_cases h : x + r ≤ 23
  · rw [advance_of_le (by omega) h]; omega
  · rw [advance_of_gt (by omega) (by omega)]; omega

theorem landing_range {p r : Int} (hp0 : 0 ≤ p) (hp1 : p ≤ 23) (hr0 : 2 ≤ r) (hr1 : r ≤ 12) :
    ∀ k : Nat, 0 ≤ landing r p k ∧ landing r p k ≤ 23 := by
  intro k
  induction k with
  | zero => exact ⟨hp0, hp1⟩
  | succ n ih =>
    have : landing r p (n + 1) = advance (landing r p n) r := by
      unfold landing
      rw [Function.iterate_succ_apply']
    rw [this]
    exact advance_range ih.1 ih.2 hr0 hr1

theorem moveLoop_no_outOfBounds (board : Fin NUM_BOARD_SPACES → Space) (orig : Int) {r : Int}
    (hr0 : 2 ≤ r) (hr1 : r ≤ 12) :
    ∀ (fuel : Nat) (x : Int), 0 ≤ x → x ≤ 23 →
      moveLoop board orig r fuel x ≠ .error .outOfBounds := by
  intro fuel
  induction fuel with
  | zero => intro x _ _ h; simp [moveLoop] at h
  | succ n ih =>
    intro x hx0 hx1 h
    have ha := advance_range hx0 hx1 hr0 hr1
    obtain ⟨i, hi, -⟩ := index?_of_range (n := NUM_BOARD_SPACES) (x := advance x r) ha.1
      (by simp only [Nat.cast_ofNat]; omega)
    unfold moveLoop at h
    simp only [hi] at h
    split at h
    · split at h
      · rename_i e hrec
        simp only [Except.error.injEq] at h
        subst h
        exact ih _ ha.1 ha.2 hrec
      · cases h
    · split at h
      · cases h
      · split at h
        · cases h
        · split at h
          · cases h
          · cases h

theorem update_Position_no_outOfBounds (g : Game) (c : Fin MAX_PLAYERS) {r : Int}
    (hp0 : 0 ≤ (g.players c).position) (hp1 : (g.players c).position ≤ 23)
    (hr0 : 2 ≤ r) (hr1 : r ≤ 12) (fuel : Nat) :
    update_Position fuel (c.val : Int) r g ≠ .error .outOfBounds := by
  cases hm : moveLoop g.board (g.players c).position r fuel (g.players c).position with
  | error e =>
    have he : e ≠ .outOfBounds := by
      intro he
      rw [he] at hm
      exact moveLoop_no_outOfBounds g.board _ hr0 hr1 fuel _ hp0 hp1 hm
    unfold update_Position
    simp only [index?_val, hm]
    intro h
    simp only [Except.error.injEq] at h
    exact he h
  | ok res =>
    obtain ⟨g', h, -⟩ := @update_Position_of_moveLoop g fuel c r res.1 res.2 hm hp0 hp1
    rw [h]
    intro h'
    cases h'

/-- C14. Index safety: from a position `p` in 0..23 with a roll from 2 to 12
the reflection never leaves 0..23, so every landing of the move, each the
subscript of a read of `board[...].special`, lies in 0..23; `update_Position`
never takes a subscript outside its array, whatever the board, and on a board
of `reset_Game` it returns, the position it flags occupied being in 0..23. -/
theorem index_safety (g : Game) (c : Fin MAX_PLAYERS) (r : Int)
    (hp0 : 0 ≤ (g.players c).position) (hp1 : (g.players c).position ≤ 23)
    (hr0 : 2 ≤ r) (hr1 : r ≤ 12) :
    (∀ x : Int, 0 ≤ x → x ≤ 23 → 0 ≤ advance x r ∧ advance x r ≤ 23) ∧
    (∀ k : Nat, 0 ≤ landing r (g.players c).position k ∧
      landing r (g.players c).position k ≤ 23) ∧
    (∀ fuel : Nat, update_Position fuel (c.val : Int) r g ≠ .error .outOfBounds) ∧
    (BoardOk g → ∃ g' out, update_Position 4 (c.val : Int) r g = .ok (g', out) ∧
      0 ≤ (g'.players c).position ∧ (g'.players c).position ≤ 23) := by
  refine ⟨fun x hx0 hx1 => advance_range hx0 hx1 hr0 hr1, landing_range hp0 hp1 hr0 hr1,
    update_Position_no_outOfBounds g c hp0 hp1 hr0 hr1, ?_⟩
  intro hb
  obtain ⟨q, out, hloop⟩ := moveLoop_returns hb hp0 hp1 hr0 hr1 (le_refl 4)
  have hq := moveLoop_range g.board _ r hp0 hp1 _ _ _ _ hloop
  obtain ⟨g', h1, h2, -⟩ := update_Position_of_moveLoop c hloop hp0 hp1
  exact ⟨g', _, h1, by rw [h2]; exact hq⟩

theorem index_safety_witness :
    (0 ≤ landing 12 ((gameAt 23 0).players 0).position 1 ∧
      landing 12 ((gameAt 23 0).players 0).position 1 ≤ 23) ∧
    update_Position 3 ((0 : Fin MAX_PLAYERS).val : Int) 12 (gameAt 23 0) ≠ .error .outOfBounds :=
  have h := index_safety (gameAt 23 0) 0 12 (by decide) (by decide) (by decide) (by decide)
  ⟨h.2.1 1, h.2.2.1 3⟩

/-! ## The configuration lists on the board -/

/-- C15. Configuration conversion, evaluated: the goose entries 7, 11, 15,
the bridge entry 6, the maze entry 13 and the skull entry 23 give the indices
6, 10, 14, 5, 12 and 22 of the reset board their symbol, but the maze entry 30
has no index on the 24-space board (30 - 1 = 29), so the reset board carries 3
goose, 1 bridge, 1 maze and 1 skull space while the maze list has 2 entries. -/
theorem maze_entry_30_off_board :
    (30 : Int) ∈ mazeSpaces ∧ index? NUM_BOARD_SPACES (30 - 1) = none ∧
    mazeSpaces.length = 2 ∧
    ((List.finRange NUM_BOARD_SPACES).filter
      (fun i => ((reset_Game initialGame).board i).special == SYM_MAZE)).length = 1 ∧
    ((List.finRange NUM_BOARD_SPACES).filter
      (fun i => ((reset_Game initialGame).board i).special == SYM_GOOSE)).length = 3 ∧
    ((List.finRange NUM_BOARD_SPACES).filter
      (fun i => ((reset_Game initialGame).board i).special == SYM_BRIDGE)).length = 1 ∧
    ((List.finRange NUM_BOARD_SPACES).filter
      (fun i => ((reset_Game initialGame).board i).special == SYM_SKULL)).length = 1 ∧
    (∀ k ∈ gooseSpaces, specialAt (reset_Game initialGame).board (k - 1) = some SYM_GOOSE) ∧
    (∀ k ∈ bridgeSpaces, specialAt (reset_Game initialGame).board (k - 1) = some SYM_BRIDGE) ∧
    (∀ k ∈ skullSpaces, specialAt (reset_Game initialGame).board (k - 1) = some SYM_SKULL) ∧
    specialAt (reset_Game initialGame).board (13 - 1) = some SYM_MAZE ∧
    specialAt (reset_Game initialGame).board (30 - 1) = none := by
  decide

/-! ## Round-robin turn order -/

theorem turnLoop_alternates (fuel : Nat) :
    ∀ (dice : List Int) (c : Int) (g : Game) (res : Outcome),
      turnLoop fuel dice c g = .ok res →
      (∀ T, res.turns[0]? = some T → T.player = c) ∧
      (∀ (t : Nat) (T T' : Turn), res.turns[t]? = some T → res.turns[t + 1]? = some T' →
        T'.player = next_Player T.player) := by
  intro dice
  induction dice with
  | nil =>
    intro c g res h
    simp only [turnLoop, Except.ok.injEq] at h
    subst h
    exact ⟨fun T hT => by simp at hT, fun t T T' hT => by simp at hT⟩
  | cons roll dice ih =>
    intro c g res h
    unfold turnLoop at h
    split at h
    · cases h
    · rename_i g' out hstep
      split at h
      · simp only [Except.ok.injEq] at h
        subst h
        refine ⟨fun T hT => ?_, fun t T T' hT hT' => ?_⟩
        · simp only [List.getElem?_cons_zero, Option.some.injEq] at hT
          subst hT; rfl
        · simp at hT'
      · split at h
        · cases h
        · rename_i res' hrec
          simp only [Except.ok.injEq] at h
          subst h
          obtain ⟨h0, hnext⟩ := ih _ _ _ hrec
          refine ⟨fun T hT => ?_, fun t T T' hT hT' => ?_⟩
          · simp only [List.getElem?_cons_zero, Option.some.injEq] at hT
            subst hT; rfl
          · simp only [List.getElem?_cons_succ] at hT'
            cases t with
            | zero =>
              simp only [List.getElem?_cons_zero, Option.some.injEq] at hT
              subst hT
              exact h0 T' hT'
            | succ t =>
              simp only [List.getElem?_cons_succ] at hT
              exact hnext t T T' hT hT'

theorem next_Player_eq {c : Int} (hc : c = 0 ∨ c = 1) :
    next_Player c = (c + 1) % 2 ∧ next_Player (next_Player c) = c ∧ next_Player c ≠ c := by
  rcases hc with rfl | rfl <;> decide

theorem alternates_parity {turns : List Turn} {first : Int} (hfirst : first = 0 ∨ first = 1)
    (h0 : ∀ T, turns[0]? = some T → T.player = first)
    (hnext : ∀ (t : Nat) (T T' : Turn), turns[t]? = some T → turns[t + 1]? = some T' →
      T'.player = next_Player T.player) :
    ∀ (t : Nat) (T : Turn), turns[t]? = some T → T.player = (first + (t : Int)) % 2 := by
  intro t
  induction t with
  | zero =>
    intro T hT
    rw [h0 T hT]
    rcases hfirst with rfl | rfl <;> decide
  | succ n ih =>
    intro T hT
    cases hprev : turns[n]? with
    | none =>
      rw [List.getElem?_eq_none_iff] at hprev
      have : turns[n + 1]? = none := by
        rw [List.getElem?_eq_none_iff]; omega
      rw [this] at hT
      cases hT
    | some T0 =>
      have h1 := ih T0 hprev
      have h2 := hnext n T0 T hprev hT
      have h3 : T0.player = 0 ∨ T0.player = 1 := by omega
      rw [h2, (next_Player_eq h3).1, h1]
      push_cast
      omega

/-- C16. Round-robin turn order: for a player index `c` in {0, 1},
`next_Player c = (c + 1) mod 2`, so `next_Player (next_Player c) = c`; and
in a run of `run_Game` on dice totals from 2 to 12 the first turn is played by
the player `determine_First_Player` returned and every further turn by the
`next_Player` of the one before, the other player: turn `t` is played by
`(first + t) mod 2`. -/
theorem round_robin :
    (∀ c : Int, c = 0 ∨ c = 1 →
      next_Player c = (c + 1) % 2 ∧ next_Player (next_Player c) = c) ∧
    (∀ (moveFuel roundFuel : Nat) (dice : List Int) (g0 : Game) (first : Int)
      (dice' : List Int) (calls : List (Int × Int)),
      4 ≤ moveFuel → (∀ d ∈ dice, 2 ≤ d ∧ d ≤ 12) →
      determine_First_Player roundFuel dice = .ok (first, dice', calls) →
      ∃ res, run_Game moveFuel roundFuel dice g0 = .ok res ∧
        (∀ T, res.turns[0]? = some T → T.player = first) ∧
        (∀ (t : Nat) (T T' : Turn), res.turns[t]? = some T → res.turns[t + 1]? = some T' →
          T'.player = next_Player T.player ∧ T'.player ≠ T.player) ∧
        (∀ (t : Nat) (T : Turn), res.turns[t]? = some T →
          T.player = (first + (t : Int)) % 2)) := by
  refine ⟨fun c hc => ⟨(next_Player_eq hc).1, (next_Player_eq hc).2.1⟩, ?_⟩
  intro moveFuel roundFuel dice g0 first dice' calls hfuel hdice hfirst
  obtain ⟨hc, hsub⟩ := firstPlayerLoop_result _ _ _ hfirst
  have hn : NoWinner (reset_Game g0) := by
    intro j; simp [reset_Game]
  obtain ⟨res, hres, -⟩ := turnLoop_spec moveFuel hfuel dice' first (reset_Game g0)
    (fun d hd => hdice d (hsub d hd)) hc (reset_Game_boardOk g0) (reset_Game_positionsOk g0)
    (reset_Game_occupancyOk g0) hn
  obtain ⟨h0, hnext⟩ := turnLoop_alternates moveFuel dice' first (reset_Game g0) res hres
  have hpar := alternates_parity hc h0 hnext
  refine ⟨res, ?_, h0, ?_, hpar⟩
  · unfold run_Game
    simp only [hfirst, hres]
  · intro t T T' hT hT'
    have h1 := hnext t T T' hT hT'
    have h2 := hpar t T hT
    have h3 : T.player = 0 ∨ T.player = 1 := by omega
    exact ⟨h1, by rw [h1]; exact (next_Player_eq h3).2.2⟩

theorem round_robin_witness :
    (∃ res, run_Game 4 2 [9, 9, 5, 8, 11, 2, 12, 7] initialGame = .ok res ∧
      res.turns.map (fun T => T.player) = [1, 0, 1]) ∧
    ∃ res, run_Game 4 2 [9, 9, 5, 8, 11, 2, 12, 7] initialGame = .ok res ∧
      (∀ T, res.turns[0]? = some T → T.player = 1) ∧
      (∀ (t : Nat) (T T' : Turn), res.turns[t]? = some T → res.turns[t + 1]? = some T' →
        T'.player = next_Player T.player ∧ T'.player ≠ T.player) ∧
      (∀ (t : Nat) (T : Turn), res.turns[t]? = some T → T.player = (1 + (t : Int)) % 2) :=
  ⟨⟨_, rfl, rfl⟩,
   round_robin.2 4 2 [9, 9, 5, 8, 11, 2, 12, 7] initialGame 1 [11, 2, 12, 7]
     [(0, 9), (1, 9), (0, 5), (1, 8)] (by decide) (by decide) rfl⟩

/-! ## Length of a move -/

theorem moveLoop_goose_count (board : Fin NUM_BOARD_SPACES → Space) (orig roll : Int) :
    ∀ (fuel : Nat) (x q : Int) (out : List String),
      moveLoop board orig roll fuel x = .ok (q, out) → out.count MSG_GOOSE + 1 ≤ fuel := by
  have single : ∀ m : String, m ≠ MSG_GOOSE → List.count MSG_GOOSE [m] = 0 := by
    intro m hm
    rw [List.count_cons_of_ne (Ne.symm hm), List.count_nil]
  have hb : MSG_BRIDGE ≠ MSG_GOOSE := by decide
  have hm : MSG_MAZE ≠ MSG_GOOSE := by decide
  have hs : MSG_SKULL ≠ MSG_GOOSE := by decide
  intro fuel
  induction fuel with
  | zero => intro x q out h; simp [moveLoop] at h
  | succ n ih =>
    intro x q out h
    unfold moveLoop at h
    simp only at h
    split at h
    · cases h
    · split at h
      · split at h
        · cases h
        · rename_i q' out' hrec
          simp only [Except.ok.injEq, Prod.mk.injEq] at h
          have := ih _ _ _ hrec
          rw [← h.2, List.count_cons_self]
          omega
      · split at h
        · simp only [Except.ok.injEq, Prod.mk.injEq] at h
          rw [← h.2, single _ hb]; omega
        · split at h
          · simp only [Except.ok.injEq, Prod.mk.injEq] at h
            rw [← h.2, single _ hm]; omega
          · split at h
            · simp only [Except.ok.injEq, Prod.mk.injEq] at h
              rw [← h.2, single _ hs]; omega
            · simp only [Except.ok.injEq, Prod.mk.injEq] at h
              rw [← h.2, List.count_nil]; omega

/-- C17. Termination of a move: on a board of `reset_Game`, from a position in
0..23 with a roll from 2 to 12, the loop of `update_Position` ends within 4
iterations (fuel 4), having printed at most 3 goose lines, and
`update_Position` returns; from position 2 with roll 4 the loop does not end
within 3 iterations and ends in the 4th. -/
theorem move_terminates :
    (∀ (g : Game) (c : Fin MAX_PLAYERS) (r : Int), BoardOk g →
      0 ≤ (g.players c).position → (g.players c).position ≤ 23 → 2 ≤ r → r ≤ 12 →
      ∃ q out g',
        moveLoop g.board (g.players c).position r 4 (g.players c).position = .ok (q, out) ∧
        out.count MSG_GOOSE ≤ 3 ∧
        update_Position 4 (c.val : Int) r g = .ok (g', out ++ [MSG_NEW_SPACE q])) ∧
    (moveLoop (gameAt 2 0).board 2 4 3 2 = .error .outOfFuel ∧
      moveLoop (gameAt 2 0).board 2 4 4 2 = .ok (18, [MSG_GOOSE, MSG_GOOSE, MSG_GOOSE]) ∧
      update_Position 3 0 4 (gameAt 2 0) = .error .outOfFuel) := by
  refine ⟨?_, by rfl, by rfl, by rfl⟩
  intro g c r hb hp0 hp1 hr0 hr1
  obtain ⟨q, out, hloop⟩ := moveLoop_returns hb hp0 hp1 hr0 hr1 (le_refl 4)
  have hcount := moveLoop_goose_count _ _ _ _ _ _ _ hloop
  obtain ⟨g', h1, -⟩ := update_Position_of_moveLoop c hloop hp0 hp1
  exact ⟨q, out, g', hloop, by omega, h1⟩

theorem move_terminates_witness :
    ∃ q out g',
      moveLoop (gameAt 8 0).board ((gameAt 8 0).players 0).position 6 4
        ((gameAt 8 0).players 0).position = .ok (q, out) ∧
      out.count MSG_GOOSE ≤ 3 ∧
      update_Position 4 ((0 : Fin MAX_PLAYERS).val : Int) 6 (gameAt 8 0) =
        .ok (g', out ++ [MSG_NEW_SPACE q]) :=
  move_terminates.1 (gameAt 8 0) 0 6 (fun _ => rfl) (by decide) (by decide) (by decide)
    (by decide)

/-! ## Where tokens rest -/

theorem get_Special_cases (position : Int) :
    get_Special position = SYM_GOOSE ∨ get_Special position = SYM_BRIDGE ∨
    get_Special position = SYM_MAZE ∨ get_Special position = SYM_SKULL ∨
    get_Special position = SYM_NONE := by
  unfold get_Special
  split_ifs <;> simp

theorem moveLoop_plain {board : Fin NUM_BOARD_SPACES → Space}
    (hb : ∀ i, (board i).special = get_Special (i.val : Int)) {orig : Int}
    (horig : get_Special orig = SYM_NONE) (roll : Int) :
    ∀ (fuel : Nat) (x q : Int) (out : List String),
      moveLoop board orig roll fuel x = .ok (q, out) → get_Special q = SYM_NONE := by
  intro fuel
  induction fuel with
  | zero => intro x q out h; simp [moveLoop] at h
  | succ n ih =>
    intro x q out h
    unfold moveLoop at h
    simp only at h
    split at h
    · cases h
    · rename_i i hi
      have hv := index?_eq_some hi
      split at h
      · split at h
        · cases h
        · rename_i q' out' hrec
          simp only [Except.ok.injEq, Prod.mk.injEq] at h
          rw [← h.1]
          exact ih _ _ _ hrec
      · rename_i h1
        split at h
        · simp only [Except.ok.injEq, Prod.mk.injEq] at h
          rw [← h.1]; decide
        · rename_i h2
          split at h
          · simp only [Except.ok.injEq, Prod.mk.injEq] at h
            rw [← h.1]; exact horig
          · rename_i h3
            split at h
            · simp only [Except.ok.injEq, Prod.mk.injEq] at h
              rw [← h.1]; decide
            · rename_i h4
              simp only [Except.ok.injEq, Prod.mk.injEq] at h
              rw [← h.1, ← hv]
              rw [hb i] at h1 h2 h3 h4
              rcases get_Special_cases (i.val : Int) with h5 | h5 | h5 | h5 | h5
              · exact absurd h5 h1
              · exact absurd h5 h2
              · exact absurd h5 h3
              · exact absurd h5 h4
              · exact h5

theorem Reachable.plain {g : Game} (h : Reachable g) :
    ∀ c : Fin MAX_PLAYERS, get_Special (g.players c).position = SYM_NONE := by
  induction h with
  | reset g =>
    intro c
    have : ((reset_Game g).players c).position = 0 := rfl
    rw [this]
    decide
  | move fuel c r hreach _ _ _ hstep ih =>
    obtain ⟨cp, q, out', i, -, hloop, -, hp, -, -⟩ := update_Position_ok hstep
    have hq := moveLoop_plain hreach.boardOk (ih cp) r _ _ _ _ hloop
    intro j
    rw [hp]
    by_cases hj : j = cp
    · subst hj; simpa using hq
    · rw [Function.update_noteq hj]; exact ih j

/-- C18. Tokens rest only on plain spaces: in every state reachable from
`reset_Game` every player's position is an index of the board whose space has
no effect, neither goose nor bridge nor maze nor skull; the start index 0 and
the bridge target 11 are such indices. -/
theorem rests_on_plain (g : Game) (h : Reachable g) :
    (∀ c : Fin MAX_PLAYERS, specialAt g.board (g.players c).position = some SYM_NONE ∧
      get_Special (g.players c).position = SYM_NONE) ∧
    get_Special 0 = SYM_NONE ∧ get_Special 11 = SYM_NONE := by
  refine ⟨?_, by decide, by decide⟩
  intro c
  have hp := h.positionsOk c
  obtain ⟨i, hi, hv⟩ := index?_of_range (n := NUM_BOARD_SPACES) (x := (g.players c).position)
    hp.1 (by simp only [Nat.cast_ofNat]; omega)
  refine ⟨?_, h.plain c⟩
  unfold specialAt
  rw [hi]
  simp only [Option.map_some', Option.some.injEq]
  rw [h.boardOk i, hv]
  exact h.plain c

theorem rests_on_plain_witness :
    ∃ g out, update_Position 4 1 5 (reset_Game initialGame) = .ok (g, out) ∧
      (g.players 1).position = 11 ∧
      specialAt g.board (g.players 1).position = some SYM_NONE :=
  have hstep : update_Position 4 1 5 (reset_Game initialGame) =
      .ok ((match update_Position 4 1 5 (reset_Game initialGame) with
            | .ok (g, _) => g
            | .error _ => initialGame), [MSG_BRIDGE, MSG_NEW_SPACE 11]) := by rfl
  ⟨_, _, hstep, by rfl,
    ((rests_on_plain _
      (Reachable.move 4 1 5 (Reachable.reset initialGame) (Or.inr rfl) (by decide) (by decide)
        hstep)).1 1).1⟩

/-! ## Overshoot and the last space -/

set_option maxRecDepth 100000 in
theorem overshoot_table : ∀ p : Fin 23, ∀ r : Fin 13, 2 ≤ r.val → 23 < p.val + r.val →
    ((moveLoop (reset_Game initialGame).board (p.val : Int) (r.val : Int) 4
      (p.val : Int)).toOption.map Prod.fst) ≠ some 23 := by
  decide

theorem moveLoop_fuel_irrelevant (board : Fin NUM_BOARD_SPACES → Space) (orig roll : Int)
    {fuel fuel' : Nat} {x : Int} {a b : Int × List String}
    (ha : moveLoop board orig roll fuel x = .ok a)
    (hb : moveLoop board orig roll fuel' x = .ok b) : a = b := by
  rcases le_total fuel fuel' with h | h
  · have := moveLoop_mono board orig roll h ha
    rw [hb] at this
    simp only [Except.ok.injEq] at this
    exact this.symm
  · have := moveLoop_mono board orig roll h hb
    rw [ha] at this
    simp only [Except.ok.injEq] at this
    exact this

theorem moveLoop_overshoot {board : Fin NUM_BOARD_SPACES → Space}
    (hb : ∀ i, (board i).special = get_Special (i.val : Int))
    {p r : Int} (hp0 : 0 ≤ p) (hp1 : p ≤ 22) (hr0 : 2 ≤ r) (hr1 : r ≤ 12) (hover : 23 < p + r)
    {fuel : Nat} {q : Int} {out : List String}
    (h : moveLoop board p r fuel p = .ok (q, out)) : q ≠ 23 := by
  have hcongr := @moveLoop_congr board (reset_Game initialGame).board
    (fun i => by rw [hb i]; rfl) p r
  obtain ⟨q4, out4, h4⟩ := moveLoop_returns hb hp0 (by omega) hr0 hr1 (le_refl 4)
  have heq := moveLoop_fuel_irrelevant board p r h h4
  simp only [Prod.mk.injEq] at heq
  have ht := overshoot_table ⟨p.toNat, by omega⟩ ⟨r.toNat, by omega⟩ (by simp only; omega)
    (by simp only; omega)
  have hpe : ((p.toNat : Nat) : Int) = p := by omega
  have hre : ((r.toNat : Nat) : Int) = r := by omega
  simp only [hpe, hre] at ht
  rw [← hcongr, h4] at ht
  intro hq
  apply ht
  simp [Except.toOption, ← heq.1, hq]

theorem moveLoop_last (board : Fin NUM_BOARD_SPACES → Space) {orig r : Int}
    (horig : orig ≠ 23) (hr0 : 2 ≤ r) (hr1 : r ≤ 12) :
    ∀ (fuel : Nat) (x : Int) (out : List String), 0 ≤ x → x ≤ 23 →
      moveLoop board orig r fuel x = .ok (23, out) →
      ∃ k : Nat, (∀ j, j < k → specialAt board (landing r x (j + 1)) = some SYM_GOOSE) ∧
        landing r x (k + 1) = 23 ∧ landing r x k + r = 23 := by
  intro fuel
  induction fuel with
  | zero => intro x out _ _ h; simp [moveLoop] at h
  | succ n ih =>
    intro x out hx0 hx1 h
    have ha := advance_range hx0 hx1 hr0 hr1
    unfold moveLoop at h
    simp only at h
    split at h
    · cases h
    · rename_i i hi
      split at h
      · rename_i hgoose
        split at h
        · cases h
        · rename_i q' out' hrec
          simp only [Except.ok.injEq, Prod.mk.injEq] at h
          rw [h.1] at hrec
          obtain ⟨k, hk1, hk2, hk3⟩ := ih _ _ ha.1 ha.2 hrec
          refine ⟨k + 1, ?_, by rw [landing_succ]; exact hk2, by rw [landing_succ]; exact hk3⟩
          intro j hj
          cases j with
          | zero =>
            have : landing r x (0 + 1) = advance x r := by simp [landing]
            rw [this]
            unfold specialAt
            rw [hi]
            simp [hgoose]
          | succ j =>
            rw [landing_succ]
            exact hk1 j (by omega)
      · split at h
        · simp only [Except.ok.injEq, Prod.mk.injEq] at h
          omega
        · split at h
          · simp only [Except.ok.injEq, Prod.mk.injEq] at h
            exact absurd h.1 horig
          · split at h
            · simp only [Except.ok.injEq, Prod.mk.injEq] at h
              omega
            · simp only [Except.ok.injEq, Prod.mk.injEq] at h
              have h23 : advance x r = 23 := h.1
              refine ⟨0, fun j hj => absurd hj (by omega), by simpa [landing] using h23, ?_⟩
              have : landing r x 0 = x := rfl
              rw [this]
              by_cases hle : x + r ≤ 23
              · rw [advance_of_le (by omega) hle] at h23; exact h23
              · rw [advance_of_gt (by omega) (by omega)] at h23; omega

theorem overshoot_from_23 :
    moveLoop (gameAt 23 0).board 23 11 4 23 = .ok (23, [MSG_MAZE]) ∧ advance 23 11 = 12 := by
  refine ⟨by rfl, by decide⟩

/-- C19. Overshoot never wins: on a board of `reset_Game`, from a position
`p` in 0..22 with a roll `r` from 2 to 12, `update_Position` returns, and
whenever it returns, if `p + r > 23` the position it leaves is not 23, and if
the position it leaves is 23 then some landing of the move, reached over goose
spaces only, is 23 and was reached without reflection: the landing before it
plus `r` is exactly 23. -/
theorem overshoot_never_wins (g : Game) (c : Fin MAX_PLAYERS) (r : Int) (hb : BoardOk g)
    (hp0 : 0 ≤ (g.players c).position) (hp1 : (g.players c).position ≤ 22)
    (hr0 : 2 ≤ r) (hr1 : r ≤ 12) :
    (∃ g' out, update_Position 4 (c.val : Int) r g = .ok (g', out)) ∧
    ∀ (fuel : Nat) (g' : Game) (out : List String),
      update_Position fuel (c.val : Int) r g = .ok (g', out) →
      (23 < (g.players c).position + r → (g'.players c).position ≠ 23) ∧
      ((g'.players c).position = 23 →
        ∃ k : Nat,
          (∀ j, j < k →
            specialAt g.board (landing r (g.players c).position (j + 1)) = some SYM_GOOSE) ∧
          landing r (g.players c).position (k + 1) = 23 ∧
          landing r (g.players c).position k + r = 23) := by
  constructor
  · obtain ⟨q, out, hloop⟩ := moveLoop_returns hb hp0 (by omega) hr0 hr1 (le_refl 4)
    obtain ⟨g', h1, -⟩ := update_Position_of_moveLoop c hloop hp0 (by omega)
    exact ⟨g', _, h1⟩
  · intro fuel g' out h
    obtain ⟨cp, q, out', i, hcp, hloop, -, hp, -, -⟩ := update_Position_ok h
    rw [index?_val] at hcp
    simp only [Option.some.injEq] at hcp
    subst hcp
    have hq : (g'.players c).position = q := by rw [hp]; simp
    rw [hq]
    constructor
    · intro hover
      exact moveLoop_overshoot hb hp0 hp1 hr0 hr1 hover hloop
    · intro h23
      rw [h23] at hloop
      exact moveLoop_last g.board (by omega) hr0 hr1 _ _ _ hp0 (by omega) hloop

theorem overshoot_never_wins_witness :
    (∃ g' out, update_Position 4 0 12 (gameAt 20 0) = .ok (g', out) ∧
      (g'.players 0).position ≠ 23) ∧
    (∃ g' out, update_Position 4 1 12 (gameAt 0 11) = .ok (g', out) ∧
      (g'.players 1).position = 23 ∧
      ∃ k : Nat, landing 12 ((gameAt 0 11).players 1).position (k + 1) = 23 ∧
        landing 12 ((gameAt 0 11).players 1).position k + 12 = 23) :=
  have h1 : update_Position 4 0 12 (gameAt 20 0) =
      .ok ((match update_Position 4 0 12 (gameAt 20 0) with
            | .ok (g, _) => g
            | .error _ => initialGame), [MSG_GOOSE, MSG_NEW_SPACE 20]) := by rfl
  have h2 : update_Position 4 1 12 (gameAt 0 11) =
      .ok ((match update_Position 4 1 12 (gameAt 0 11) with
            | .ok (g, _) => g
            | .error _ => initialGame), [MSG_NEW_SPACE 23]) := by rfl
  ⟨⟨_, _, h1,
     ((overshoot_never_wins (gameAt 20 0) 0 12 (fun _ => rfl) (by decide) (by decide)
        (by decide) (by decide)).2 4 _ _ h1).1 (by decide)⟩,
   ⟨_, _, h2, by rfl,
     (((overshoot_never_wins (gameAt 0 11) 1 12 (fun _ => rfl) (by decide) (by decide)
        (by decide) (by decide)).2 4 _ _ h2).2 (by rfl)).imp (fun _ hk => hk.2)⟩⟩

end Goose
